import Mathlib

/-!
Verification development for the task-state reconciliation and ordering engine
of the Backlog.md repository.  The data model and the operations below are
shallow embeddings of the TypeScript source (`src/core/backlog.ts`, the
markdown serializer/parser, and the type declarations).  Timestamps (JS `Date`
values and date strings) are modelled uniformly as integers; JS `Map` objects
keyed by task id are modelled as association lists with in-place replacement,
which preserves both the key-value contents and the insertion order that
`Array.from(map.values())` observes.
-/

namespace Backlog

/-- Task priority, mirroring the `"high" | "medium" | "low"` union type. -/
inductive Priority where
  | high
  | medium
  | low
deriving DecidableEq, Repr

/-- Provenance tag, mirroring `source?: "local" | "remote" | "completed" | "local-branch"`. -/
inductive Source where
  | local
  | remote
  | completed
  | localBranch
deriving DecidableEq, Repr

/-- Task resolution strategy from `BacklogConfig.taskResolutionStrategy`. -/
inductive ResolutionStrategy where
  | most_recent
  | most_progressed
deriving DecidableEq, Repr

/-- Structured acceptance criterion (`AcceptanceCriterion` in types/index.ts). -/
structure AcceptanceCriterion where
  index : Nat
  text : String
  checked : Bool
deriving DecidableEq, Repr

/-- History entry (`TaskHistoryEntry` in types/index.ts). -/
structure TaskHistoryEntry where
  updatedAt : String
  description : String
  author : String
  status : String
deriving DecidableEq, Repr

/-- The central `Task` entity from types/index.ts.  Date-valued fields
(`createdDate`, `updatedDate`, `lastModified`) are modelled as integer
timestamps; every other field keeps its source type, with `undefined`
rendered as `Option`. -/
structure Task where
  id : String
  title : String
  status : String
  assignee : List String
  reporter : Option String := none
  createdDate : Int := 0
  updatedDate : Option Int := none
  labels : List String := []
  milestone : Option String := none
  dependencies : List String := []
  rawContent : Option String := none
  description : Option String := none
  implementationPlan : Option String := none
  implementationNotes : Option String := none
  acceptanceCriteriaItems : Option (List AcceptanceCriterion) := none
  parentTaskId : Option String := none
  subtasks : Option (List String) := none
  priority : Option Priority := none
  branch : Option String := none
  ordinal : Option Int := none
  lastModified : Option Int := none
  source : Option Source := none
  onStatusChange : Option String := none
  branchName : Option String := none
  gitTag : Option String := none
  prNumber : Option String := none
  history : Option (List TaskHistoryEntry) := none
deriving DecidableEq, Repr

/-- JS `String.prototype.trim`, modelled structurally over the character
list (whitespace stripped from both ends). -/
def trimStr (s : String) : String :=
  ⟨((s.data.dropWhile Char.isWhitespace).reverse.dropWhile Char.isWhitespace).reverse⟩

/-- JS `String.prototype.toLowerCase`, modelled structurally over the
character list. -/
def lowerStr (s : String) : String := ⟨s.data.map Char.toLower⟩

/-- Discovery-record type tag of a `BranchTaskStateEntry` (`task | document`). -/
inductive EntryType where
  | task
  | document
deriving DecidableEq, Repr

/-- Ephemeral discovery record produced by branch scanning
(`BranchTaskStateEntry` in task-loader.ts, as declared by its consumers in
core.ts): `{ id, type, branch, path, lastModified }`. -/
structure BranchTaskStateEntry where
  id : String
  type : EntryType
  branch : String
  path : String
  lastModified : Int
deriving DecidableEq, Repr

/-- JS `Map.get`: look up a key in an association list. -/
def mapGet? {α : Type} : List (String × α) → String → Option α
  | [], _ => none
  | p :: rest, k => if p.1 = k then some p.2 else mapGet? rest k

/-- JS `Map.set`: replace the value in place when the key is present,
append a fresh entry otherwise (preserving JS `Map` insertion order). -/
def mapSet {α : Type} : List (String × α) → String → α → List (String × α)
  | [], k, v => [(k, v)]
  | p :: rest, k, v => if p.1 = k then (k, v) :: rest else p :: mapSet rest k v

/-- The values of an id-keyed map, in insertion order (`Array.from(map.values())`). -/
def mapValues {α : Type} (m : List (String × α)) : List α :=
  m.map (fun p => p.2)

/-- The synthetic state entry core.ts builds for a local filesystem task inside
`buildLatestStateMap`: type `task`, branch `"local"`, empty path, timestamp
`task.lastModified ?? (task.updatedDate ? new Date(task.updatedDate) : new Date(0))`. -/
def localStateEntry (t : Task) : BranchTaskStateEntry :=
  { id := t.id
    type := EntryType.task
    branch := "local"
    path := ""
    lastModified :=
      match t.lastModified with
      | some d => d
      | none => match t.updatedDate with
        | some u => u
        | none => 0 }

/-- The `update` closure of `buildLatestStateMap` (core.ts lines 83-88): an
entry replaces the current one for its id only when strictly fresher. -/
def updateLatest (m : List (String × BranchTaskStateEntry)) (e : BranchTaskStateEntry) :
    List (String × BranchTaskStateEntry) :=
  match mapGet? m e.id with
  | none => mapSet m e.id e
  | some existing => if existing.lastModified < e.lastModified then mapSet m e.id e else m

/-- `buildLatestStateMap(stateEntries, localTasks)` from core.ts lines 78-108:
fold the scanned entries first, then synthetic entries for each local task
with a non-empty id, each via `updateLatest`. -/
def buildLatestStateMap (stateEntries : List BranchTaskStateEntry) (localTasks : List Task) :
    List (String × BranchTaskStateEntry) :=
  let afterScans := stateEntries.foldl updateLatest []
  localTasks.foldl
    (fun m t => if t.id = "" then m else updateLatest m (localStateEntry t)) afterScans

/-- `filterTasksByStateSnapshots(tasks, latestState)` from core.ts lines 110-116:
keep a task when its id has no state entry or the entry's type is `task`. -/
def filterTasksByStateSnapshots (tasks : List Task)
    (latestState : List (String × BranchTaskStateEntry)) : List Task :=
  tasks.filter (fun t =>
    match mapGet? latestState t.id with
    | none => true
    | some latest => latest.type = EntryType.task)

/-- Rank of a status inside the configured ordered status list: its first
index, or `-1` when absent (JS `indexOf`; the spec treats unknown statuses as
least progressed). -/
def statusRank : List String → String → Int
  | [], _ => -1
  | s :: rest, q =>
    if s = q then 0
    else
      let r := statusRank rest q
      if r < 0 then -1 else r + 1

/-- Recency of a task record: its `lastModified` timestamp, falling back to
`updatedDate` and then `createdDate` (spec section 4.2). -/
def recencyOf (t : Task) : Int :=
  match t.lastModified with
  | some d => d
  | none => match t.updatedDate with
    | some u => u
    | none => t.createdDate

/-- Modelled from the spec: the `most_recent` half of `resolveTaskConflict`
(task-loader.ts is not under src/).  The record with the later
`lastModified`/`updatedDate` (falling back to `createdDate`) wins outright;
when the candidate is not strictly later, the current winner stays. -/
def mostRecentOf (a b : Task) : Task :=
  if recencyOf a < recencyOf b then b else a

/-- Modelled from the spec: `resolve(a, b, statusOrder, strategy)` from
task-loader.ts, which is not under src/.  `most_recent` compares recency;
`most_progressed` compares each record's status position in the configured
ordered status list (unknown statuses are least progressed) and falls back to
`most_recent` on ties. -/
def resolveTaskConflict (statuses : List String) (strategy : ResolutionStrategy)
    (a b : Task) : Task :=
  match strategy with
  | ResolutionStrategy.most_recent => mostRecentOf a b
  | ResolutionStrategy.most_progressed =>
    let ra := statusRank statuses a.status
    let rb := statusRank statuses b.status
    if ra < rb then b
    else if rb < ra then a
    else mostRecentOf a b

/-- `{ ...t, source: "local" }` applied to each local task when seeding the
merge map (core.ts line 1764). -/
def localize (t : Task) : Task :=
  { t with source := some Source.local }

/-- `new Map(localTasks.map((t) => [t.id, { ...t, source: "local" }]))`:
seed the id-keyed map with the local filesystem tasks (later duplicates of an
id overwrite earlier ones, as in the JS `Map` constructor). -/
def seedMap (localTasks : List Task) : List (String × Task) :=
  localTasks.foldl (fun m t => mapSet m t.id (localize t)) []

/-- One merge fold of `loadTasks` (core.ts lines 1767-1795): for each incoming
task, insert it when its id is new, otherwise replace the current winner by
the pairwise conflict resolution of winner and candidate. -/
def foldMerge (statuses : List String) (strategy : ResolutionStrategy)
    (m : List (String × Task)) (ts : List Task) : List (String × Task) :=
  ts.foldl
    (fun m c =>
      match mapGet? m c.id with
      | none => mapSet m c.id c
      | some existing => mapSet m c.id (resolveTaskConflict statuses strategy existing c))
    m

/-- The merge pipeline of `loadTasks`: seed with local tasks, fold in the
other-local-branch tasks, then fold in the remote tasks. -/
def mergeTasks (statuses : List String) (strategy : ResolutionStrategy)
    (localTasks localBranchTasks remoteTasks : List Task) : List (String × Task) :=
  foldMerge statuses strategy
    (foldMerge statuses strategy (seedMap localTasks) localBranchTasks) remoteTasks

/-- The merge pipeline with the two fold phases swapped: remote tasks folded
before the other-local-branch tasks (the order the claim compares against). -/
def mergeTasksRemoteFirst (statuses : List String) (strategy : ResolutionStrategy)
    (localTasks localBranchTasks remoteTasks : List Task) : List (String × Task) :=
  foldMerge statuses strategy
    (foldMerge statuses strategy (seedMap localTasks) remoteTasks) localBranchTasks

/-- The comparison key under which `resolveTaskConflict` picks a winner:
`most_recent` compares recency alone, `most_progressed` compares the pair
(status rank, recency) lexicographically. -/
def resolutionKey (statuses : List String) (strategy : ResolutionStrategy) (t : Task) :
    Int × Int :=
  match strategy with
  | ResolutionStrategy.most_recent => (0, recencyOf t)
  | ResolutionStrategy.most_progressed => (statusRank statuses t.status, recencyOf t)

/-- Strict lexicographic order on resolution keys. -/
def KeyGt (a b : Int × Int) : Prop :=
  b.1 < a.1 ∨ (a.1 = b.1 ∧ b.2 < a.2)

instance (a b : Int × Int) : Decidable (KeyGt a b) := by
  unfold KeyGt; infer_instance

/-- The tail of `loadTasks` (core.ts lines 1763-1819): merge the three task
collections, take the map's values, and, unless cross-branch checking is
disabled, drop the tasks whose freshest known state entry is not of type
`task`. -/
def loadTasksModel (checkActiveBranches : Bool) (statuses : List String)
    (strategy : ResolutionStrategy) (localTasks localBranchTasks remoteTasks : List Task)
    (stateEntries : List BranchTaskStateEntry) : List Task :=
  let merged := mergeTasks statuses strategy localTasks localBranchTasks remoteTasks
  let tasks := mapValues merged
  if checkActiveBranches = false then tasks
  else filterTasksByStateSnapshots tasks (buildLatestStateMap stateEntries localTasks)

/-- Written from the claim's words, for comparison with `buildLatestStateMap`:
the freshest known state entry per id, "preferring local filesystem entries
over scanned entries when timestamps tie".  Local synthetic entries are folded
first, so a scanned entry displaces one only when strictly fresher. -/
def claimedLatestStateMap (stateEntries : List BranchTaskStateEntry) (localTasks : List Task) :
    List (String × BranchTaskStateEntry) :=
  let afterLocals := localTasks.foldl
    (fun m t => if t.id = "" then m else updateLatest m (localStateEntry t)) []
  stateEntries.foldl updateLatest afterLocals

/-- One step of the freshest-entry selection: a candidate displaces the
current entry only when strictly fresher (the `update` closure seen through a
single id). -/
def freshestStep (acc : Option BranchTaskStateEntry) (e : BranchTaskStateEntry) :
    Option BranchTaskStateEntry :=
  match acc with
  | none => some e
  | some a => if a.lastModified < e.lastModified then some e else some a

/-- Fold that picks the first entry with the (strictly) largest timestamp from
a candidate list; used to characterise what `buildLatestStateMap` stores per id. -/
def freshestOf (cands : List BranchTaskStateEntry) : Option BranchTaskStateEntry :=
  cands.foldl freshestStep none

/-- All state entries competing for one id, in the order `buildLatestStateMap`
processes them: the scanned entries first, then the synthetic entries of the
local tasks with non-empty ids. -/
def stateCands (es : List BranchTaskStateEntry) (ls : List Task) (id : String) :
    List BranchTaskStateEntry :=
  (es ++ (ls.filter (fun t => t.id ≠ "")).map localStateEntry).filter (fun e => e.id = id)

/-- One merge step seen through a single id: the first candidate for an id is
inserted as-is, later ones are resolved against the current winner. -/
def mergeStep (statuses : List String) (strategy : ResolutionStrategy)
    (acc : Option Task) (c : Task) : Option Task :=
  match acc with
  | none => some c
  | some w => some (resolveTaskConflict statuses strategy w c)

/-- Well-formedness of an id-keyed task map: keys are unique and every stored
task carries its key as id. -/
def goodMap (m : List (String × Task)) : Prop :=
  (m.map (fun p => p.1)).Nodup ∧ ∀ p ∈ m, p.2.id = p.1

/-- Default ordinal spacing step imported by core.ts from reorder.ts; the spec
gives 1000 as the configured default spacing. -/
def DEFAULT_ORDINAL_STEP : Int := 1000

/-- Whether any two adjacent tasks in the requested bucket order currently
share an ordinal (two missing ordinals also collide). -/
def hasAdjacentSharedOrdinal : List Task → Bool
  | a :: b :: rest => a.ordinal == b.ordinal || hasAdjacentSharedOrdinal (b :: rest)
  | _ => false

/-- Sequential reassignment `startOrdinal, startOrdinal+defaultStep,
startOrdinal+2*defaultStep, …` over the full ordered list (the full-rebalance
branch of `resolveOrdinalConflicts`). -/
def assignSeq (start step : Int) : List Task → List Task
  | [] => []
  | t :: rest => { t with ordinal := some start } :: assignSeq (start + step) step rest

/-- The conflict-removing sweep of `resolveOrdinalConflicts` outside the
full-rebalance branch: walk the requested order keeping each ordinal that is
strictly greater than the previous one and shifting every other task to one
step past the previous ordinal (a task with no ordinal at the head of the
bucket receives `start`). -/
def sweepOrdinals (step : Int) (prev : Option Int) (start : Int) : List Task → List Task
  | [] => []
  | t :: rest =>
    match t.ordinal, prev with
    | some o, none => t :: sweepOrdinals step (some o) start rest
    | some o, some p =>
      if p < o then t :: sweepOrdinals step (some o) start rest
      else { t with ordinal := some (p + step) } :: sweepOrdinals step (some (p + step)) start rest
    | none, none => { t with ordinal := some start } :: sweepOrdinals step (some start) start rest
    | none, some p =>
      { t with ordinal := some (p + step) } :: sweepOrdinals step (some (p + step)) start rest

/-- Modelled from the spec: the bucket contents after
`resolveOrdinalConflicts(tasksInBucketOrder, {defaultStep, startOrdinal,
forceSequential})` is applied (reorder.ts is not under src/).  The whole list
is reassigned sequentially when `forceSequential` is set or when any two
adjacent tasks currently share an ordinal; otherwise only the tasks whose
ordinal must shift to remove a collision are changed. -/
def resolvedBucket (tasks : List Task) (defaultStep startOrdinal : Int)
    (forceSequential : Bool) : List Task :=
  if forceSequential || hasAdjacentSharedOrdinal tasks then
    assignSeq startOrdinal defaultStep tasks
  else
    sweepOrdinals defaultStep none startOrdinal tasks

/-- Modelled from the spec: `resolveOrdinalConflicts` returns only the minimal
set of changed tasks — those whose ordinal differs from their ordinal in the
resolved bucket (reorder.ts is not under src/). -/
def resolveOrdinalConflicts (tasks : List Task) (defaultStep startOrdinal : Int)
    (forceSequential : Bool) : List Task :=
  ((tasks.zip (resolvedBucket tasks defaultStep startOrdinal forceSequential)).filter
    (fun p => p.1.ordinal ≠ p.2.ordinal)).map (fun p => p.2)

/-- Modelled from the spec: `calculateNewOrdinal({previous, next, defaultStep})`
from reorder.ts, which is not under src/.  Both neighbours present with at
least one unit of integer space: the midpoint; no space left:
`requiresRebalance` with a best-effort ordinal; an absent neighbour means the
task goes at that end of the bucket. -/
def calculateNewOrdinal (previous next : Option Task) (defaultStep : Int) : Int × Bool :=
  match previous, next with
  | some p, some n =>
    let po := p.ordinal.getD 0
    let no := n.ordinal.getD 0
    if po + 1 < no then ((po + no) / 2, false) else (po + 1, true)
  | some p, none => (p.ordinal.getD 0 + defaultStep, false)
  | none, some n =>
    let no := n.ordinal.getD 0
    if 1 < no then (no / 2, false) else (no, true)
  | none, none => (defaultStep, false)

/-- Result of `computeSequences`: 1-indexed waves plus the unsequenced rest. -/
structure SequencesResult where
  unsequenced : List Task
  sequences : List (Nat × List Task)
deriving DecidableEq, Repr

/-- A task is ready for the next wave when each of its dependencies is either
absent from the active set or already placed into a prior wave. -/
def readyTask (activeIds placed : List String) (t : Task) : Bool :=
  t.dependencies.all (fun d => !activeIds.contains d || placed.contains d)

/-- Modelled from the spec: the iterative Kahn-style layering of
`computeSequences` (sequences.ts is not under src/).  Repeatedly extract, in
stable input order, the tasks whose dependencies are all already placed (or
reference tasks outside the active set), emit them as the next 1-based wave,
and stop when no further progress is made; the leftovers are unsequenced. -/
def computeWaves (fuel : Nat) (activeIds : List String) (placed : List String)
    (remaining : List Task) (idx : Nat) : List (Nat × List Task) × List Task :=
  match fuel with
  | 0 => ([], remaining)
  | fuel + 1 =>
    let ready := remaining.filter (readyTask activeIds placed)
    if ready.isEmpty then ([], remaining)
    else
      let rest := remaining.filter (fun t => !readyTask activeIds placed t)
      let out := computeWaves fuel activeIds (placed ++ ready.map (fun t => t.id)) rest (idx + 1)
      ((idx, ready) :: out.1, out.2)

/-- Modelled from the spec: `computeSequences(activeTasks)` (sequences.ts is
not under src/). -/
def computeSequences (activeTasks : List Task) : SequencesResult :=
  let out := computeWaves activeTasks.length (activeTasks.map (fun t => t.id)) [] activeTasks 1
  ⟨out.2, out.1⟩

/-- First wave index (if any) whose task list contains a task with the given id. -/
def waveOf (seqs : List (Nat × List Task)) (taskId : String) : Option Nat :=
  (seqs.find? (fun w => w.2.any (fun t => t.id = taskId))).map (fun w => w.1)

/-- Parameters of `Core.reorderTask` (core.ts lines 1057-1065).
`targetMilestone` distinguishes absent (`none`), `null` (`some none`) and a
string (`some (some s)`). -/
structure ReorderParams where
  taskId : String
  targetStatus : String
  orderedTaskIds : List String
  targetMilestone : Option (Option String) := none
  defaultStep : Option Int := none

/-- JS truthiness of an optional string: present and non-empty. -/
def jsTruthy (o : Option String) : Bool := o.getD "" ≠ ""

/-- First id that repeats in the list, scanning left to right with a `seen`
set (the duplicate check of `reorderTask`, core.ts lines 1078-1084). -/
def firstDup (seen : List String) : List String → Option String
  | [] => none
  | x :: xs => if seen.contains x then some x else firstDup (x :: seen) xs

/-- The tail of `Core.reorderTask` past the branch-ownership rejection
(core.ts lines 1110-1177): locate the move target among the loadable ids,
compute the new ordinal, resolve ordinal conflicts over the full ordered
list, and collect the records whose ordinal, status or milestone actually
changed — exactly the records then persisted through `updateTasksBulk`. -/
def reorderFinish (movedTask : Task) (validTasks : List Task)
    (orderedTaskIds : List String) (taskId targetStatus : String)
    (targetMilestone : Option (Option String)) (defaultStep : Int) :
    Except String (Task × List Task) :=
  let hasTargetMilestone := targetMilestone.isSome
  let normalizedTargetMilestone : Option String :=
    match targetMilestone with
    | some (some s) => if 0 < (trimStr s).length then some (trimStr s) else none
    | _ => none
  let validOrderedIds := orderedTaskIds.filter
    (fun i => validTasks.any (fun t => t.id = i))
  match validOrderedIds.findIdx? (fun i => i = taskId) with
  | none => Except.error "Implementation error: Task found in validTasks but index missing"
  | some targetIndex =>
    let previousTask := if 0 < targetIndex then validTasks.get? (targetIndex - 1) else none
    let nextTask := validTasks.get? (targetIndex + 1)
    let r := calculateNewOrdinal previousTask nextTask defaultStep
    let updatedMoved : Task :=
      { movedTask with
        status := targetStatus
        milestone := if hasTargetMilestone then normalizedTargetMilestone
          else movedTask.milestone
        ordinal := some r.1 }
    let tasksInOrder := (validTasks.enum).map
      (fun p => if p.1 = targetIndex then updatedMoved else p.2)
    let resolutionUpdates := resolveOrdinalConflicts tasksInOrder defaultStep defaultStep r.2
    let updatesMap := resolutionUpdates.foldl (fun m u => mapSet m u.id u) []
    let updatesMap :=
      if (mapGet? updatesMap updatedMoved.id).isSome then updatesMap
      else mapSet updatesMap updatedMoved.id updatedMoved
    let originalMap := validTasks.foldl (fun m t => mapSet m t.id t) []
    let changedTasks := (mapValues updatesMap).filter (fun u =>
      match mapGet? originalMap u.id with
      | none => true
      | some original =>
        original.ordinal ≠ u.ordinal ∨ original.status ≠ u.status ∨
          original.milestone.getD "" ≠ u.milestone.getD "")
    let updatedTask := (mapGet? updatesMap taskId).getD updatedMoved
    Except.ok (updatedTask, changedTasks)

/-- `Core.reorderTask` (core.ts lines 1057-1178) as a pure function.  `getTask`
stands for the content-store/filesystem lookup used to load each ordered id.
On success the second component is `changedTasks`: exactly the records the
source then persists through `updateTasksBulk`; every `Except.error` in the
source is thrown before any record is written. -/
def reorderTaskModel (getTask : String → Option Task) (params : ReorderParams) :
    Except String (Task × List Task) :=
  let taskId := trimStr params.taskId
  let targetStatus := trimStr params.targetStatus
  let orderedTaskIds := (params.orderedTaskIds.map trimStr).filter (fun s => s ≠ "")
  let defaultStep := params.defaultStep.getD DEFAULT_ORDINAL_STEP
  if taskId = "" then Except.error "taskId is required"
  else if targetStatus = "" then Except.error "targetStatus is required"
  else if orderedTaskIds = [] then Except.error "orderedTaskIds must include at least one task"
  else if !orderedTaskIds.contains taskId then
    Except.error "orderedTaskIds must include the task being moved"
  else
    match firstDup [] orderedTaskIds with
    | some d => Except.error ("Duplicate task id " ++ d ++ " in orderedTaskIds")
    | none =>
      let loadedTasks := orderedTaskIds.map getTask
      let validTasks := loadedTasks.filterMap (fun t => t)
      match validTasks.find? (fun t => t.id = taskId) with
      | none => Except.error ("Task " ++ taskId ++ " not found while reordering")
      | some movedTask =>
        if jsTruthy movedTask.branch then
          Except.error ("Task " ++ taskId ++ " exists in branch \x22" ++
            movedTask.branch.getD "" ++
            "\x22 and cannot be reordered from the current branch. Switch to that branch to modify it.")
        else
          reorderFinish movedTask validTasks orderedTaskIds taskId targetStatus
            params.targetMilestone defaultStep

/-- The YAML frontmatter object built by `serializeTask` (serializer file,
lines 8-28) and read back by `parseTask` (parser file, lines 149-205).  Keys
mirror the object literal; an absent key (a `...(cond && {k})` spread whose
condition is falsy) is `none`.  The out-of-scope YAML text layer
(`matter.stringify`/`matter`) is modelled as the identity on this record, per
the spec's scoping of the markdown serialization format as external. -/
structure TaskFrontmatter where
  id : String
  title : String
  status : String
  assignee : List String
  reporter : Option String := none
  created_date : Int := 0
  updated_date : Option Int := none
  labels : List String := []
  milestone : Option String := none
  dependencies : List String := []
  parent_task_id : Option String := none
  subtasks : Option (List String) := none
  priority : Option String := none
  ordinal : Option Int := none
  onStatusChange : Option String := none
  branch_name : Option String := none
  git_tag : Option String := none
  pr_number : Option String := none
  history : Option (List TaskHistoryEntry) := none
deriving DecidableEq, Repr

/-- JS truthiness filter for an optional string field: a `...(x && {x})`
spread keeps the key only for a present, non-empty string. -/
def optNonempty (o : Option String) : Option String :=
  match o with
  | some s => if s = "" then none else some s
  | none => none

/-- The literal spelling of a priority value. -/
def Priority.asString : Priority → String
  | Priority.high => "high"
  | Priority.medium => "medium"
  | Priority.low => "low"

/-- The frontmatter part of `serializeTask(task)`: each key included exactly
under the source's condition (`reporter`, `milestone`, `parent_task_id`,
`onStatusChange`, `branch_name`, `git_tag`, `pr_number` only when truthy;
`subtasks` and `history` only when non-empty; `updated_date` when present;
`priority` when present; `ordinal` whenever not undefined). `normalizeAssignee`
mutates only a non-array assignee value, which cannot occur in this typed
model, so it is the identity here. -/
def serializeTaskFrontmatter (t : Task) : TaskFrontmatter :=
  { id := t.id
    title := t.title
    status := t.status
    assignee := t.assignee
    reporter := optNonempty t.reporter
    created_date := t.createdDate
    updated_date := t.updatedDate
    labels := t.labels
    milestone := optNonempty t.milestone
    dependencies := t.dependencies
    parent_task_id := optNonempty t.parentTaskId
    subtasks := match t.subtasks with
      | some l => if l = [] then none else some l
      | none => none
    priority := t.priority.map Priority.asString
    ordinal := t.ordinal
    onStatusChange := optNonempty t.onStatusChange
    branch_name := optNonempty t.branchName
    git_tag := optNonempty t.gitTag
    pr_number := optNonempty t.prNumber
    history := match t.history with
      | some l => if l = [] then none else some l
      | none => none }

/-- The priority validation of `parseTask` (parser file, lines 153-156):
lowercase the raw value and keep it only when it is one of high/medium/low;
a falsy (empty) raw value is already dropped. -/
def validatePriority (p : Option String) : Option Priority :=
  match p with
  | none => none
  | some s =>
    if s = "" then none
    else
      let n := lowerStr s
      if n = "high" then some Priority.high
      else if n = "medium" then some Priority.medium
      else if n = "low" then some Priority.low
      else none

/-- `parseTask` restricted to the frontmatter-derived fields (parser file,
lines 175-204).  The body-derived fields (`rawContent`, description, plans,
notes, acceptance criteria) come from structured-section helpers outside the
provided sources and are parsed here as from an empty body; `normalizeDate`
is the identity on the abstract timestamps of this model. -/
def parseTaskFrontmatter (fm : TaskFrontmatter) : Task :=
  { id := fm.id
    title := fm.title
    status := fm.status
    assignee := fm.assignee
    reporter := optNonempty fm.reporter
    createdDate := fm.created_date
    updatedDate := fm.updated_date
    labels := fm.labels
    milestone := optNonempty fm.milestone
    dependencies := fm.dependencies
    rawContent := some ""
    acceptanceCriteriaItems := some []
    description := some ""
    implementationPlan := none
    implementationNotes := none
    parentTaskId := optNonempty fm.parent_task_id
    subtasks := fm.subtasks
    priority := validatePriority fm.priority
    ordinal := fm.ordinal
    onStatusChange := optNonempty fm.onStatusChange
    branchName := optNonempty fm.branch_name
    gitTag := optNonempty fm.git_tag
    prNumber := optNonempty fm.pr_number
    history := match fm.history with
      | some l => if l = [] then none else some l
      | none => none }

/-- Numeric value of a decimal digit character (JS `parseInt` digit step). -/
def charVal (c : Char) : Nat := c.toNat - 48

/-- `Number.parseInt(s, 10)` on a string of decimal digits. -/
def digitsVal (cs : List Char) : Nat :=
  cs.foldl (fun a c => 10 * a + charVal c) 0

/-- The `id.match(/^task-(\d+)/)` extraction of `generateNextId` (core.ts
lines 456-461): the id must start with `task-` followed by at least one
decimal digit; the captured value is the parsed run of digits. -/
def extractTaskNum (idStr : String) : Option Nat :=
  if idStr.toList.take 5 = "task-".toList then
    if (idStr.toList.drop 5).takeWhile Char.isDigit = [] then none
    else some (digitsVal ((idStr.toList.drop 5).takeWhile Char.isDigit))
  else none

/-- The `max` accumulation over all collected ids (core.ts lines 455-462). -/
def maxTaskNum (ids : List String) : Nat :=
  ids.foldl
    (fun m i =>
      match extractTaskNum i with
      | some n => max m n
      | none => m)
    0

/-- Decimal digit character for a value below 10. -/
def digitChar (d : Nat) : Char := Char.ofNat (48 + d)

/-- Decimal digits of a natural number, most significant first (JS
`String(n)` for a non-negative integer). -/
def natDigits (n : Nat) : List Char :=
  if n < 10 then [digitChar n]
  else natDigits (n / 10) ++ [digitChar (n % 10)]
  decreasing_by exact Nat.div_lt_self (by omega) (by omega)

/-- JS `String.prototype.padStart(width, "0")`. -/
def padStartZeros (cs : List Char) (w : Nat) : List Char :=
  List.replicate (w - cs.length) '0' ++ cs

/-- The no-parent branch of `Core.generateNextId` (core.ts lines 400-472):
`allIds` collects the ids of content-store tasks, drafts, archived tasks and
completed tasks; the next number is one past the maximum captured `task-<n>`
value, zero-padded when `zeroPaddedIds` is configured positive. -/
def generateNextId (allIds : List String) (padding : Option Nat) : String :=
  let next := maxTaskNum allIds + 1
  let digits := natDigits next
  let padded :=
    match padding with
    | some p => if 0 < p then padStartZeros digits p else digits
    | none => digits
  "task-" ++ String.mk padded

/-- Input form of a structured acceptance criterion
(`AcceptanceCriterionInput` in types/index.ts). -/
structure AcceptanceCriterionInput where
  text : String
  checked : Option Bool := none
deriving DecidableEq, Repr

/-- `TaskUpdateInput` from types/index.ts, restricted to the fields
`updateTaskFromInput` reads (it never reads `rawContent`).  `milestone`
distinguishes absent (`none`), `null` (`some none`) and a string. -/
structure TaskUpdateInput where
  title : Option String := none
  description : Option String := none
  status : Option String := none
  priority : Option String := none
  milestone : Option (Option String) := none
  labels : Option (List String) := none
  addLabels : Option (List String) := none
  removeLabels : Option (List String) := none
  assignee : Option (List String) := none
  ordinal : Option Int := none
  dependencies : Option (List String) := none
  addDependencies : Option (List String) := none
  removeDependencies : Option (List String) := none
  implementationPlan : Option String := none
  appendImplementationPlan : Option (List String) := none
  clearImplementationPlan : Option Bool := none
  implementationNotes : Option String := none
  appendImplementationNotes : Option (List String) := none
  clearImplementationNotes : Option Bool := none
  acceptanceCriteria : Option (List AcceptanceCriterionInput) := none
  addAcceptanceCriteria : Option (List AcceptanceCriterionInput) := none
  removeAcceptanceCriteria : Option (List Nat) := none
  checkAcceptanceCriteria : Option (List Nat) := none
  uncheckAcceptanceCriteria : Option (List Nat) := none
  branchName : Option String := none
  gitTag : Option String := none
  prNumber : Option String := none
  addToHistory : Option TaskHistoryEntry := none

/-- Modelled from the spec: `normalizeStringList` from utils/task-builders.ts,
which is not under src/ — normalize a user-supplied string list by trimming
entries and dropping empties, passing `undefined` through. -/
def normalizeStringList (l : Option (List String)) : Option (List String) :=
  l.map (fun xs => (xs.map trimStr).filter (fun s => s ≠ ""))

/-- Modelled from the spec: `stringArraysEqual` from utils/task-builders.ts,
which is not under src/ — element-wise equality of two string arrays. -/
def stringArraysEqual (a b : List String) : Bool := a == b

/-- Modelled from the spec: `normalizeDependencies` from
utils/task-builders.ts, which is not under src/ — trim the requested
dependency ids and drop empties. -/
def normalizeDependencies (l : Option (List String)) : List String :=
  ((l.getD []).map trimStr).filter (fun s => s ≠ "")

/-- Modelled from the spec: `validateDependencies` from
utils/task-builders.ts, which is not under src/ — split the requested ids
into those that reference existing tasks or drafts and those that do not. -/
def validateDependencies (existingIds deps : List String) : List String × List String :=
  (deps.filter (fun d => existingIds.contains d),
   deps.filter (fun d => !existingIds.contains d))

/-- Environment consumed by `updateTaskFromInput`: the canonical-status
resolver (`requireCanonicalStatus`; `none` means the status is invalid), the
valid statuses quoted by its error message, the ids that exist for dependency
validation, and the timestamp `updateTask` writes into `updatedDate`. -/
structure UpdateEnv where
  canonicalStatus : String → Option String
  validStatuses : List String
  existingIds : List String
  now : Int

/-- Outcome of `updateTaskFromInput`: the returned task, whether
`updateTask` persisted it (`wrote`), and whether the status-change callback
fired. -/
structure UpdateResult where
  task : Task
  wrote : Bool
  callbackFired : Bool
deriving DecidableEq, Repr

/-- The `applyStringField` helper of `updateTaskFromInput` (core.ts lines
668-680): assign a supplied string only when it differs from
`current ?? ""`, reporting whether it mutated. -/
def applyStringField (value current : Option String) : Option String × Bool :=
  match value with
  | none => (current, false)
  | some v => if current.getD "" ≠ v then (some v, true) else (current, false)

/-- The `appendBlock` helper (core.ts lines 836-852): trim the additions,
drop empties, and append them as a double-newline separated block to the
trimmed existing text. -/
def appendBlock (existing : Option String) (additions : List String) :
    Option String × Bool :=
  let sanitized := (additions.map trimStr).filter (fun s => s ≠ "")
  if sanitized = [] then (existing, false)
  else
    let current := trimStr (existing.getD "")
    let block := String.intercalate "\n\n" sanitized
    if current = "" then (some block, true) else (some (current ++ "\n\n" ++ block), true)

/-- Title edit (core.ts lines 682-691). -/
def stepTitle (i : TaskUpdateInput) (s : Task × Bool) : Except String (Task × Bool) :=
  match i.title with
  | none => Except.ok s
  | some v =>
    let trimmed := trimStr v
    if trimmed = "" then Except.error "Title cannot be empty."
    else if s.1.title ≠ trimmed then Except.ok ({ s.1 with title := trimmed }, true)
    else Except.ok s

/-- Description edit (core.ts lines 693-695). -/
def stepDescription (i : TaskUpdateInput) (s : Task × Bool) : Task × Bool :=
  let r := applyStringField i.description s.1.description
  if r.2 then ({ s.1 with description := r.1 }, true) else s

/-- Status edit (core.ts lines 697-704): `draft` maps to `Draft`, every other
value must resolve to a canonical status. -/
def stepStatus (env : UpdateEnv) (i : TaskUpdateInput) (s : Task × Bool) :
    Except String (Task × Bool) :=
  match i.status with
  | none => Except.ok s
  | some v =>
    let canonical? : Except String String :=
      if lowerStr (trimStr v) = "draft" then Except.ok "Draft"
      else
        match env.canonicalStatus v with
        | some c => Except.ok c
        | none =>
          Except.error ("Invalid status: " ++ v ++ ". Valid statuses are: " ++
            String.intercalate ", " env.validStatuses)
    match canonical? with
    | Except.error e => Except.error e
    | Except.ok canonical =>
      if s.1.status ≠ canonical then Except.ok ({ s.1 with status := canonical }, true)
      else Except.ok s

/-- `Core.normalizePriority` (core.ts lines 200-210). -/
def normalizePriorityModel (value : Option String) : Except String (Option Priority) :=
  match value with
  | none => Except.ok none
  | some v =>
    if v = "" then Except.ok none
    else
      let normalized := lowerStr v
      if normalized = "high" then Except.ok (some Priority.high)
      else if normalized = "medium" then Except.ok (some Priority.medium)
      else if normalized = "low" then Except.ok (some Priority.low)
      else Except.error ("Invalid priority: " ++ v ++ ". Valid values are: high, medium, low")

/-- Priority edit (core.ts lines 706-712). -/
def stepPriority (i : TaskUpdateInput) (s : Task × Bool) : Except String (Task × Bool) :=
  match i.priority with
  | none => Except.ok s
  | some v =>
    match normalizePriorityModel (some v) with
    | Except.error e => Except.error e
    | Except.ok normalized =>
      if s.1.priority ≠ normalized then Except.ok ({ s.1 with priority := normalized }, true)
      else Except.ok s

/-- Milestone edit (core.ts lines 714-725): `null` clears, a blank string
clears, a non-blank string is trimmed. -/
def stepMilestone (i : TaskUpdateInput) (s : Task × Bool) : Task × Bool :=
  match i.milestone with
  | none => s
  | some m =>
    let normalized : Option String :=
      match m with
      | none => none
      | some str => if 0 < (trimStr str).length then some (trimStr str) else none
    if s.1.milestone ≠ normalized then ({ s.1 with milestone := normalized }, true) else s

/-- Ordinal edit (core.ts lines 727-735): negative values are rejected. -/
def stepOrdinal (i : TaskUpdateInput) (s : Task × Bool) : Except String (Task × Bool) :=
  match i.ordinal with
  | none => Except.ok s
  | some o =>
    if o < 0 then Except.error "Ordinal must be a non-negative number."
    else if s.1.ordinal ≠ some o then Except.ok ({ s.1 with ordinal := some o }, true)
    else Except.ok s

/-- Assignee edit (core.ts lines 737-743). -/
def stepAssignee (i : TaskUpdateInput) (s : Task × Bool) : Task × Bool :=
  match i.assignee with
  | none => s
  | some l =>
    let sanitized := (normalizeStringList (some l)).getD []
    if !stringArraysEqual sanitized s.1.assignee then
      ({ s.1 with assignee := sanitized }, true)
    else s

/-- The `resolveLabelChanges` closure (core.ts lines 745-780): full
replacement, then case-insensitive additions, then case-insensitive removals,
threading the current label list. -/
def stepLabels (i : TaskUpdateInput) (s : Task × Bool) : Task × Bool :=
  let afterSet : Task × Bool × List String :=
    match i.labels with
    | none => (s.1, s.2, s.1.labels)
    | some ls =>
      let sanitized := (normalizeStringList (some ls)).getD []
      if !stringArraysEqual sanitized s.1.labels then
        ({ s.1 with labels := sanitized }, true, sanitized)
      else (s.1, s.2, sanitized)
  let toAdd := (normalizeStringList i.addLabels).getD []
  let afterAdd : Task × Bool × List String :=
    if toAdd = [] then afterSet
    else
      let added := toAdd.foldl
        (fun (acc : List String × Bool) lab =>
          if (acc.1.map (fun x => lowerStr x)).contains (lowerStr lab) then acc
          else (acc.1 ++ [lab], true))
        (afterSet.2.2, afterSet.2.1)
      ({ afterSet.1 with labels := added.1 }, added.2, added.1)
  let toRemove := (normalizeStringList i.removeLabels).getD []
  if toRemove = [] then (afterAdd.1, afterAdd.2.1)
  else
    let removalSet := toRemove.map (fun x => lowerStr x)
    let filtered := afterAdd.2.2.filter (fun lab => !removalSet.contains (lowerStr lab))
    if !stringArraysEqual filtered afterAdd.2.2 then
      ({ afterAdd.1 with labels := filtered }, true)
    else (afterAdd.1, afterAdd.2.1)

/-- The `resolveDependencies` closure (core.ts lines 782-827): full
replacement with validation, additions with validation and dedup, removals,
then an unconditional write-back of the threaded list. -/
def stepDependencies (env : UpdateEnv) (i : TaskUpdateInput) (s : Task × Bool) :
    Except String (Task × Bool) :=
  let depsError : List String → String := fun invalid =>
    "The following dependencies do not exist: " ++ String.intercalate ", " invalid ++
      ". Please create these tasks first or verify the IDs."
  let afterSet? : Except String (List String × Bool) :=
    match i.dependencies with
    | none => Except.ok (s.1.dependencies, s.2)
    | some ds =>
      let normalized := normalizeDependencies (some ds)
      let vi := validateDependencies env.existingIds normalized
      if vi.2 ≠ [] then Except.error (depsError vi.2)
      else if !stringArraysEqual vi.1 s.1.dependencies then Except.ok (vi.1, true)
      else Except.ok (s.1.dependencies, s.2)
  match afterSet? with
  | Except.error e => Except.error e
  | Except.ok afterSet =>
    let afterAdd? : Except String (List String × Bool) :=
      match i.addDependencies with
      | none => Except.ok afterSet
      | some [] => Except.ok afterSet
      | some ds =>
        let additions := normalizeDependencies (some ds)
        let vi := validateDependencies env.existingIds additions
        if vi.2 ≠ [] then Except.error (depsError vi.2)
        else
          Except.ok (vi.1.foldl
            (fun (acc : List String × Bool) dep =>
              if acc.1.contains dep then acc else (acc.1 ++ [dep], true))
            afterSet)
    match afterAdd? with
    | Except.error e => Except.error e
    | Except.ok afterAdd =>
      let afterRemove : List String × Bool :=
        match i.removeDependencies with
        | none => afterAdd
        | some [] => afterAdd
        | some ds =>
          let removals := normalizeDependencies (some ds)
          let filtered := afterAdd.1.filter (fun dep => !removals.contains dep)
          if !stringArraysEqual filtered afterAdd.1 then (filtered, true) else afterAdd
      Except.ok ({ s.1 with dependencies := afterRemove.1 }, afterRemove.2)

/-- The clear-then-set-then-append pattern applied to one free-text field
(core.ts lines 854-892 repeat it for the implementation plan and the
implementation notes): clear when requested and present, assign a supplied
value that differs from `current ?? ""`, then append the sanitized addition
blocks; the Bool accumulates the mutation flag. -/
def editTextField (clear : Bool) (setv : Option String) (appends : List String)
    (current : Option String) (mflag : Bool) : Option String × Bool :=
  let s1 : Option String × Bool :=
    if clear then (if current.isSome then (none, true) else (current, mflag))
    else (current, mflag)
  let r2 := applyStringField setv s1.1
  let s2 : Option String × Bool := if r2.2 then (r2.1, true) else s1
  let r3 := appendBlock s2.1 appends
  if r3.2 then (r3.1, true) else s2

/-- Implementation-plan and -notes edits (core.ts lines 854-892): clear,
then direct set, then append, for each of the two fields in turn. -/
def stepPlanNotes (i : TaskUpdateInput) (s : Task × Bool) : Task × Bool :=
  let p := editTextField (i.clearImplementationPlan.getD false) i.implementationPlan
    (i.appendImplementationPlan.getD []) s.1.implementationPlan s.2
  let s' : Task × Bool := ({ s.1 with implementationPlan := p.1 }, p.2)
  let n := editTextField (i.clearImplementationNotes.getD false) i.implementationNotes
    (i.appendImplementationNotes.getD []) s'.1.implementationNotes s'.2
  ({ s'.1 with implementationNotes := n.1 }, n.2)

/-- Replace the first criterion carrying the given index (the in-place
object mutation performed by `toggleCriteria`). -/
def setCheckedFirst (idx : Nat) (desired : Bool) :
    List AcceptanceCriterion → List AcceptanceCriterion
  | [] => []
  | c :: rest =>
    if c.index = idx then { c with checked := desired } :: rest
    else c :: setCheckedFirst idx desired rest

/-- The `toggleCriteria` closure (core.ts lines 948-966): flip each addressed
criterion that is not already in the desired state, collect missing indices,
and fail when any index was missing. -/
def toggleCriteria (indices : List Nat) (desired : Bool)
    (s : List AcceptanceCriterion × Bool) :
    Except String (List AcceptanceCriterion × Bool) :=
  if indices = [] then Except.ok s
  else
    let out := indices.foldl
      (fun (acc : List AcceptanceCriterion × Bool × List Nat) idx =>
        match acc.1.find? (fun c => c.index = idx) with
        | none => (acc.1, acc.2.1, acc.2.2 ++ [idx])
        | some c =>
          if c.checked ≠ desired then
            (setCheckedFirst idx desired acc.1, true, acc.2.2)
          else acc)
      (s.1, s.2, [])
    if out.2.2 = [] then Except.ok (out.1, out.2.1)
    else
      Except.error ("Acceptance criterion " ++
        String.intercalate ", " (out.2.2.map (fun n => "#" ++ toString n)) ++ " not found")

/-- Acceptance-criteria edits (core.ts lines 894-971): full replacement
(always marks the task mutated), additions, removals with re-indexing,
check/uncheck toggles, then the unconditional write-back of the list. -/
def stepAcceptance (i : TaskUpdateInput) (s : Task × Bool) : Except String (Task × Bool) :=
  let ac0 := s.1.acceptanceCriteriaItems.getD []
  let afterReplace : List AcceptanceCriterion × Bool :=
    match i.acceptanceCriteria with
    | none => (ac0, s.2)
    | some cs =>
      let sanitized := ((cs.map (fun c => (trimStr c.text, c.checked.getD false))).filter
        (fun p => 0 < p.1.length)).enum.map
          (fun p => { index := p.1 + 1, text := p.2.1, checked := p.2.2 })
      (sanitized, true)
  let additions := ((i.addAcceptanceCriteria.getD []).map (fun c => trimStr c.text)).filter
    (fun t => 0 < t.length)
  let afterAdd : List AcceptanceCriterion × Bool :=
    if additions = [] then afterReplace
    else
      let start := ((afterReplace.1.map (fun c => c.index)).foldl max 0) + 1
      let out := additions.foldl
        (fun (acc : List AcceptanceCriterion × Nat) txt =>
          (acc.1 ++ [{ index := acc.2, text := txt, checked := false }], acc.2 + 1))
        (afterReplace.1, start)
      (out.1, true)
  let afterRemove? : Except String (List AcceptanceCriterion × Bool) :=
    match i.removeAcceptanceCriteria with
    | none => Except.ok afterAdd
    | some [] => Except.ok afterAdd
    | some removal =>
      let filtered := afterAdd.1.filter (fun c => !removal.contains c.index)
      if filtered.length = afterAdd.1.length then
        Except.error ("Acceptance criterion " ++
          String.intercalate ", " (removal.eraseDups.map (fun n => "#" ++ toString n)) ++
          " not found")
      else
        Except.ok ((filtered.enum.map (fun p => { p.2 with index := p.1 + 1 })), true)
  match afterRemove? with
  | Except.error e => Except.error e
  | Except.ok afterRemove =>
    match toggleCriteria (i.checkAcceptanceCriteria.getD []) true afterRemove with
    | Except.error e => Except.error e
    | Except.ok afterCheck =>
      match toggleCriteria (i.uncheckAcceptanceCriteria.getD []) false afterCheck with
      | Except.error e => Except.error e
      | Except.ok afterUncheck =>
        Except.ok ({ s.1 with acceptanceCriteriaItems := some afterUncheck.1 },
          afterUncheck.2)

/-- The trailing string-field edits and history append (core.ts lines
973-991). -/
def stepTail (i : TaskUpdateInput) (s : Task × Bool) : Task × Bool :=
  let afterBranchName :=
    let r := applyStringField i.branchName s.1.branchName
    if r.2 then ({ s.1 with branchName := r.1 }, true) else s
  let afterGitTag :=
    let r := applyStringField i.gitTag afterBranchName.1.gitTag
    if r.2 then ({ afterBranchName.1 with gitTag := r.1 }, true) else afterBranchName
  let afterPr :=
    let r := applyStringField i.prNumber afterGitTag.1.prNumber
    if r.2 then ({ afterGitTag.1 with prNumber := r.1 }, true) else afterGitTag
  match i.addToHistory with
  | none => afterPr
  | some h => ({ afterPr.1 with history := some ((afterPr.1.history.getD []) ++ [h]) }, true)

/-- `Core.updateTaskFromInput(taskId, input)` (core.ts lines 660-1000) as a
pure function over the loaded task.  When nothing mutated, the task is
returned as-is with no write; otherwise `updateTask` (core.ts lines 633-658)
stamps `updatedDate` with the current time, saves, and fires the
status-change callback exactly when the stored status changed. -/
def updateTaskFromInputModel (env : UpdateEnv) (taskId : String) (loaded : Option Task)
    (i : TaskUpdateInput) : Except String UpdateResult :=
  match loaded with
  | none => Except.error ("Task not found: " ++ taskId)
  | some task =>
    match stepTitle i (task, false) with
    | Except.error e => Except.error e
    | Except.ok s1 =>
      let s2 := stepDescription i s1
      match stepStatus env i s2 with
      | Except.error e => Except.error e
      | Except.ok s3 =>
        match stepPriority i s3 with
        | Except.error e => Except.error e
        | Except.ok s4 =>
          let s5 := stepMilestone i s4
          match stepOrdinal i s5 with
          | Except.error e => Except.error e
          | Except.ok s6 =>
            let s7 := stepAssignee i s6
            let s8 := stepLabels i s7
            match stepDependencies env i s8 with
            | Except.error e => Except.error e
            | Except.ok s9 =>
              let s10 := stepPlanNotes i s9
              match stepAcceptance i s10 with
              | Except.error e => Except.error e
              | Except.ok s11 =>
                let s12 := stepTail i s11
                if !s12.2 then
                  Except.ok { task := s12.1, wrote := false, callbackFired := false }
                else
                  Except.ok
                    { task := { s12.1 with updatedDate := some env.now }
                      wrote := true
                      callbackFired := task.status ≠ s12.1.status }

/-- Concrete task used to witness the serialization round-trip. -/
def sampleTask : Task :=
  { id := "task-7"
    title := "Sample"
    status := "To Do"
    assignee := ["alice"]
    reporter := some "bob"
    createdDate := 10
    updatedDate := some 11
    labels := ["backend"]
    milestone := some "M1"
    dependencies := ["task-1", "task-2"]
    priority := some Priority.high
    ordinal := some 4
    parentTaskId := some "task-2"
    lastModified := some 12 }

/-- Concrete scanned entry whose branch copy of task-1 is no longer a task
file (it was archived on that branch). -/
def scanEntryDoc : BranchTaskStateEntry :=
  { id := "task-1", type := EntryType.document, branch := "feature-x",
    path := "backlog/archive/task-1.md", lastModified := 5 }

/-- Concrete scanned entry for task-1 that is still a task file. -/
def scanEntryTask : BranchTaskStateEntry :=
  { id := "task-1", type := EntryType.task, branch := "feature-x",
    path := "backlog/tasks/task-1.md", lastModified := 9 }

/-- Concrete local filesystem task used in the state-filter scenarios; its
`lastModified` ties with `scanEntryDoc`. -/
def localTask1 : Task :=
  { id := "task-1", title := "One", status := "To Do", assignee := [],
    lastModified := some 5 }

/-- Concrete branch copy of task-1, timestamp 5. -/
def branchCopy1 : Task :=
  { id := "task-1", title := "from-branch", status := "To Do", assignee := [],
    lastModified := some 5, source := some Source.localBranch, branch := some "feat" }

/-- Concrete remote copy of task-1 whose resolution key ties with the branch
copy (same status, same timestamp). -/
def remoteCopy1 : Task :=
  { id := "task-1", title := "from-remote", status := "To Do", assignee := [],
    lastModified := some 5, source := some Source.remote, branch := some "origin/feat" }

/-- Concrete remote copy of task-1 that is strictly fresher than the branch
copy. -/
def remoteCopy2 : Task :=
  { id := "task-1", title := "from-remote", status := "To Do", assignee := [],
    lastModified := some 7, source := some Source.remote, branch := some "origin/feat" }

/-- Concrete bucket member with ordinal 1000. -/
def bucketTaskA : Task :=
  { id := "task-a", title := "A", status := "To Do", assignee := [], ordinal := some 1000 }

/-- Concrete bucket member duplicating ordinal 1000 (historical duplication). -/
def bucketTaskB : Task :=
  { id := "task-b", title := "B", status := "To Do", assignee := [], ordinal := some 1000 }

/-- Concrete active task with no dependencies. -/
def seqTaskA : Task :=
  { id := "task-1", title := "A", status := "To Do", assignee := [] }

/-- Concrete active task depending on `seqTaskA`. -/
def seqTaskB : Task :=
  { id := "task-2", title := "B", status := "To Do", assignee := [],
    dependencies := ["task-1"] }

/-- Concrete active task depending on `seqTaskA` and `seqTaskB`. -/
def seqTaskC : Task :=
  { id := "task-3", title := "C", status := "To Do", assignee := [],
    dependencies := ["task-1", "task-2"] }

/-- The active set of the sequencing example. -/
def seqActive : List Task := [seqTaskA, seqTaskB, seqTaskC]

/-- Concrete reorder request moving task-1 within a two-task column. -/
def rpOrdered : ReorderParams :=
  { taskId := "task-1", targetStatus := "To Do", orderedTaskIds := ["task-1", "task-2"] }

/-- Concrete reorder request whose ordering list omits the moved task. -/
def rpMissingMoved : ReorderParams :=
  { taskId := "task-1", targetStatus := "To Do", orderedTaskIds := ["task-2"] }

/-- Task lookup that finds nothing (every referenced task was deleted). -/
def lookupNone : String → Option Task := fun _ => none

/-- Concrete task whose authoritative copy lives on another branch. -/
def branchOwnedTask : Task :=
  { id := "task-1", title := "Owned elsewhere", status := "To Do", assignee := [],
    branch := some "feat" }

/-- Task lookup resolving task-1 to the branch-owned copy. -/
def lookupBranchOwned : String → Option Task :=
  fun i => if i = "task-1" then some branchOwnedTask else none

/-- Concrete update environment: canonical statuses, one existing id, and a
fixed current timestamp. -/
def updEnv : UpdateEnv :=
  { canonicalStatus := fun s => if trimStr s = "To Do" then some "To Do" else none
    validStatuses := ["To Do", "In Progress", "Done"]
    existingIds := ["task-1", "task-2"]
    now := 99 }

/-- Concrete stored task for the update scenarios. -/
def updTask : Task :=
  { id := "task-1", title := "Same Title", status := "To Do", assignee := [],
    labels := ["ui"], dependencies := ["task-2"],
    acceptanceCriteriaItems := some [{ index := 1, text := "a", checked := true }] }

/-- Update input that replaces the acceptance criteria with an identical
list — it changes nothing yet marks the task mutated. -/
def updInputAC : TaskUpdateInput :=
  { acceptanceCriteria := some [{ text := "a", checked := some true }] }

/-- Update input every one of whose operations is detected as changing
nothing: it re-supplies the current title (with surrounding whitespace),
adds a label already present up to case, removes a label that is absent,
adds a dependency already present, removes a dependency that is absent,
and checks a criterion that is already checked. -/
def updInputSame : TaskUpdateInput :=
  { title := some " Same Title "
    addLabels := some ["UI"]
    removeLabels := some ["backend"]
    addDependencies := some ["task-2"]
    removeDependencies := some ["task-9"]
    checkAcceptanceCriteria := some [1] }

/-! ## Theorems -/

theorem mapGet?_set_self {α : Type} (m : List (String × α)) (k : String) (v : α) :
    mapGet? (mapSet m k v) k = some v := by
  induction m with
  | nil => simp [mapSet, mapGet?]
  | cons p rest ih =>
    by_cases h : p.1 = k
    · simp [mapSet, h, mapGet?]
    · simp [mapSet, h, mapGet?, ih]

theorem mapGet?_set_ne {α : Type} (m : List (String × α)) (k k' : String) (v : α)
    (h : k' ≠ k) : mapGet? (mapSet m k v) k' = mapGet? m k' := by
  have hk : k ≠ k' := Ne.symm h
  induction m with
  | nil => simp [mapSet, mapGet?, hk]
  | cons p rest ih =>
    by_cases hpk : p.1 = k
    · subst hpk
      simp [mapSet, mapGet?, hk]
    · by_cases hp' : p.1 = k'
      · simp [mapSet, hpk, mapGet?, hp', h]
      · simp [mapSet, hpk, mapGet?, hp', ih]

/-- Claim C8: parsing the serialized frontmatter of a well-formed task (no
empty-string milestone or parent id) restores the structured fields: id,
title, status, assignees, labels, dependencies, milestone, priority, ordinal
and parent task id. -/
theorem c8_parse_serializeTask_roundtrip (t : Task)
    (hm : t.milestone ≠ some "") (hp : t.parentTaskId ≠ some "") :
    (parseTaskFrontmatter (serializeTaskFrontmatter t)).id = t.id ∧
    (parseTaskFrontmatter (serializeTaskFrontmatter t)).title = t.title ∧
    (parseTaskFrontmatter (serializeTaskFrontmatter t)).status = t.status ∧
    (parseTaskFrontmatter (serializeTaskFrontmatter t)).assignee = t.assignee ∧
    (parseTaskFrontmatter (serializeTaskFrontmatter t)).labels = t.labels ∧
    (parseTaskFrontmatter (serializeTaskFrontmatter t)).dependencies = t.dependencies ∧
    (parseTaskFrontmatter (serializeTaskFrontmatter t)).milestone = t.milestone ∧
    (parseTaskFrontmatter (serializeTaskFrontmatter t)).priority = t.priority ∧
    (parseTaskFrontmatter (serializeTaskFrontmatter t)).ordinal = t.ordinal ∧
    (parseTaskFrontmatter (serializeTaskFrontmatter t)).parentTaskId = t.parentTaskId := by
  refine ⟨rfl, rfl, rfl, rfl, rfl, rfl, ?_, ?_, rfl, ?_⟩
  · show optNonempty (optNonempty t.milestone) = t.milestone
    cases hM : t.milestone with
    | none => simp [optNonempty]
    | some m =>
      have hne : m ≠ "" := by intro h; exact hm (by rw [hM, h])
      simp [optNonempty, hne]
  · show validatePriority (Option.map Priority.asString t.priority) = t.priority
    cases t.priority with
    | none => rfl
    | some p => cases p <;> decide
  · show optNonempty (optNonempty t.parentTaskId) = t.parentTaskId
    cases hP : t.parentTaskId with
    | none => simp [optNonempty]
    | some p =>
      have hne : p ≠ "" := by intro h; exact hp (by rw [hP, h])
      simp [optNonempty, hne]

/-- Witness for C8 at a concrete task. -/
theorem c8_parse_serializeTask_roundtrip_witness :
    sampleTask.milestone ≠ some "" ∧ sampleTask.parentTaskId ≠ some "" ∧
    ((parseTaskFrontmatter (serializeTaskFrontmatter sampleTask)).id = sampleTask.id ∧
     (parseTaskFrontmatter (serializeTaskFrontmatter sampleTask)).title = sampleTask.title ∧
     (parseTaskFrontmatter (serializeTaskFrontmatter sampleTask)).status = sampleTask.status ∧
     (parseTaskFrontmatter (serializeTaskFrontmatter sampleTask)).assignee = sampleTask.assignee ∧
     (parseTaskFrontmatter (serializeTaskFrontmatter sampleTask)).labels = sampleTask.labels ∧
     (parseTaskFrontmatter (serializeTaskFrontmatter sampleTask)).dependencies =
       sampleTask.dependencies ∧
     (parseTaskFrontmatter (serializeTaskFrontmatter sampleTask)).milestone =
       sampleTask.milestone ∧
     (parseTaskFrontmatter (serializeTaskFrontmatter sampleTask)).priority =
       sampleTask.priority ∧
     (parseTaskFrontmatter (serializeTaskFrontmatter sampleTask)).ordinal = sampleTask.ordinal ∧
     (parseTaskFrontmatter (serializeTaskFrontmatter sampleTask)).parentTaskId =
       sampleTask.parentTaskId) :=
  ⟨by decide, by decide,
    c8_parse_serializeTask_roundtrip sampleTask (by decide) (by decide)⟩

theorem mapGet?_updateLatest (m : List (String × BranchTaskStateEntry))
    (e : BranchTaskStateEntry) (id : String) :
    mapGet? (updateLatest m e) id =
      if e.id = id then freshestStep (mapGet? m id) e else mapGet? m id := by
  by_cases hid : e.id = id
  · subst hid
    unfold updateLatest
    cases hm : mapGet? m e.id with
    | none => simp [hm, freshestStep, mapGet?_set_self]
    | some ex =>
      by_cases hlt : ex.lastModified < e.lastModified
      · simp [hm, hlt, freshestStep, mapGet?_set_self]
      · simp [hm, hlt, freshestStep]
  · unfold updateLatest
    cases hm : mapGet? m e.id with
    | none => simp [hid, mapGet?_set_ne m e.id id e (Ne.symm hid)]
    | some ex =>
      by_cases hlt : ex.lastModified < e.lastModified
      · simp [hid, hlt, mapGet?_set_ne m e.id id e (Ne.symm hid)]
      · simp [hid, hlt]

theorem foldl_updateLatest_lookup (entries : List BranchTaskStateEntry)
    (m : List (String × BranchTaskStateEntry)) (id : String) :
    mapGet? (entries.foldl updateLatest m) id =
      (entries.filter (fun e => e.id = id)).foldl freshestStep (mapGet? m id) := by
  induction entries generalizing m with
  | nil => rfl
  | cons e rest ih =>
    by_cases hid : e.id = id
    · simp [List.filter_cons, hid, ih, mapGet?_updateLatest]
    · simp [List.filter_cons, hid, ih, mapGet?_updateLatest]

theorem locals_fold_as_updates (ls : List Task)
    (m : List (String × BranchTaskStateEntry)) :
    ls.foldl (fun m t => if t.id = "" then m else updateLatest m (localStateEntry t)) m =
      ((ls.filter (fun t => t.id ≠ "")).map localStateEntry).foldl updateLatest m := by
  induction ls generalizing m with
  | nil => rfl
  | cons t rest ih =>
    by_cases hid : t.id = ""
    · simp [hid, ih]
    · simp [hid, ih]

theorem buildLatest_lookup (es : List BranchTaskStateEntry) (ls : List Task) (id : String) :
    mapGet? (buildLatestStateMap es ls) id = freshestOf (stateCands es ls id) := by
  unfold buildLatestStateMap stateCands freshestOf
  rw [locals_fold_as_updates, foldl_updateLatest_lookup, foldl_updateLatest_lookup,
    List.filter_append, List.foldl_append]
  rfl

theorem freshestFrom_spec (l : List BranchTaskStateEntry) :
    ∀ (a e : BranchTaskStateEntry), l.foldl freshestStep (some a) = some e →
    (∀ x ∈ a :: l, x.lastModified ≤ e.lastModified) ∧
    ∃ l1 l2, a :: l = l1 ++ e :: l2 ∧ ∀ x ∈ l1, x.lastModified < e.lastModified := by
  induction l with
  | nil =>
    intro a e h
    simp only [List.foldl_nil, Option.some.injEq] at h
    subst h
    exact ⟨by simp, [], [], rfl, by simp⟩
  | cons b rest ih =>
    intro a e h
    simp only [List.foldl_cons] at h
    by_cases hab : a.lastModified < b.lastModified
    · rw [show freshestStep (some a) b = some b by simp [freshestStep, hab]] at h
      obtain ⟨hle, l1, l2, hdec, hstrict⟩ := ih b e h
      have hbe : b.lastModified ≤ e.lastModified := hle b (by simp)
      refine ⟨?_, a :: l1, l2, by rw [List.cons_append, ← hdec], ?_⟩
      · intro x hx
        rcases List.mem_cons.mp hx with rfl | hx'
        · omega
        · exact hle x hx'
      · intro x hx
        rcases List.mem_cons.mp hx with rfl | hx'
        · omega
        · exact hstrict x hx'
    · rw [show freshestStep (some a) b = some a by simp [freshestStep, hab]] at h
      obtain ⟨hle, l1, l2, hdec, hstrict⟩ := ih a e h
      have hae : a.lastModified ≤ e.lastModified := hle a (by simp)
      have hble : b.lastModified ≤ e.lastModified := by omega
      refine ⟨?_, ?_⟩
      · intro x hx
        rcases List.mem_cons.mp hx with rfl | hx'
        · exact hae
        rcases List.mem_cons.mp hx' with rfl | hx''
        · exact hble
        · exact hle x (by simp [hx''])
      · cases l1 with
        | nil =>
          simp only [List.nil_append] at hdec
          injection hdec with h1 h2
          refine ⟨[], b :: rest, by rw [h1]; rfl, by simp⟩
        | cons hd l1t =>
          have hdec' : a :: rest = hd :: (l1t ++ e :: l2) := by simpa using hdec
          injection hdec' with h1 h2
          have h1' : a.lastModified = hd.lastModified := by rw [h1]
          have hhdstrict : hd.lastModified < e.lastModified := hstrict hd (by simp)
          refine ⟨a :: b :: l1t, l2, by rw [h2]; simp, ?_⟩
          intro x hx
          rcases List.mem_cons.mp hx with rfl | hx'
          · omega
          rcases List.mem_cons.mp hx' with rfl | hx''
          · omega
          · exact hstrict x (by simp [hx''])

theorem freshestOf_spec (l : List BranchTaskStateEntry) (e : BranchTaskStateEntry)
    (h : freshestOf l = some e) :
    e ∈ l ∧ (∀ x ∈ l, x.lastModified ≤ e.lastModified) ∧
    ∃ l1 l2, l = l1 ++ e :: l2 ∧ ∀ x ∈ l1, x.lastModified < e.lastModified := by
  cases l with
  | nil => simp [freshestOf] at h
  | cons c rest =>
    have h' : rest.foldl freshestStep (some c) = some e := by
      simpa [freshestOf, freshestStep] using h
    obtain ⟨hle, l1, l2, hdec, hstrict⟩ := freshestFrom_spec rest c e h'
    refine ⟨?_, fun x hx => hle x hx, l1, l2, hdec, hstrict⟩
    rw [hdec]
    exact List.mem_append_right l1 (List.mem_cons_self e l2)

/-- C2 counterexample: with a scanned document-type entry and a local task
whose timestamps tie, `buildLatestStateMap` keeps the scanned entry (local
entries displace an entry only when strictly fresher), so the task is
dropped, while the claim's tie rule — local filesystem entries preferred on
ties — selects the local task-type entry and predicts the task is kept. -/
theorem c2_state_filter_counterexample :
    filterTasksByStateSnapshots [localTask1]
      (buildLatestStateMap [scanEntryDoc] [localTask1]) = [] ∧
    mapGet? (claimedLatestStateMap [scanEntryDoc] [localTask1]) "task-1" =
      some (localStateEntry localTask1) ∧
    (localStateEntry localTask1).type = EntryType.task := by
  decide

/-- Claim C2 (amended): with cross-branch checking enabled, a task survives
`loadTasks` exactly when it is in the merged view and the freshest known
state entry for its id (if any) has type `task`; the freshest entry per id is
the one with the strictly largest `lastModified` among the scanned entries
followed by the synthetic local entries —on ties the earliest processed
(scanned) entry is retained, local entries displacing one only when strictly
fresher.  With cross-branch checking disabled no task is dropped. -/
theorem c2_state_filter_amended (es : List BranchTaskStateEntry) (ls : List Task)
    (statuses : List String) (strategy : ResolutionStrategy) (branch remote : List Task) :
    (∀ t, t ∈ loadTasksModel true statuses strategy ls branch remote es ↔
      (t ∈ mapValues (mergeTasks statuses strategy ls branch remote) ∧
        ∀ e, freshestOf (stateCands es ls t.id) = some e → e.type = EntryType.task)) ∧
    (∀ id e, freshestOf (stateCands es ls id) = some e →
      e ∈ stateCands es ls id ∧
      (∀ x ∈ stateCands es ls id, x.lastModified ≤ e.lastModified) ∧
      ∃ l1 l2, stateCands es ls id = l1 ++ e :: l2 ∧
        ∀ x ∈ l1, x.lastModified < e.lastModified) ∧
    loadTasksModel false statuses strategy ls branch remote es =
      mapValues (mergeTasks statuses strategy ls branch remote) := by
  refine ⟨?_, ?_, ?_⟩
  · intro t
    have hmem : t ∈ loadTasksModel true statuses strategy ls branch remote es ↔
        t ∈ mapValues (mergeTasks statuses strategy ls branch remote) ∧
        (fun t : Task =>
          match mapGet? (buildLatestStateMap es ls) t.id with
          | none => true
          | some latest => decide (latest.type = EntryType.task)) t = true := by
      simp only [loadTasksModel, filterTasksByStateSnapshots]
      rw [if_neg (by simp)]
      exact List.mem_filter
    rw [hmem]
    simp only [buildLatest_lookup]
    cases hE : freshestOf (stateCands es ls t.id) with
    | none => simp
    | some e0 => simp
  · intro id e h
    exact freshestOf_spec (stateCands es ls id) e h
  · simp [loadTasksModel]

/-- Witness for C2 at a concrete scenario: a strictly fresher scanned
task-type entry keeps the merged local task in the result. -/
theorem c2_state_filter_amended_witness :
    localize localTask1 ∈
      loadTasksModel true ["To Do"] ResolutionStrategy.most_recent [localTask1] [] []
        [scanEntryTask] := by
  have h := (c2_state_filter_amended [scanEntryTask] [localTask1] ["To Do"]
    ResolutionStrategy.most_recent [] []).1 (localize localTask1)
  refine h.mpr ⟨by decide, ?_⟩
  intro e he
  rw [show freshestOf (stateCands [scanEntryTask] [localTask1] (localize localTask1).id) =
    some scanEntryTask by decide] at he
  cases he
  decide

theorem charVal_digitChar (d : Nat) (h : d < 10) : charVal (digitChar d) = d := by
  interval_cases d <;> decide

theorem isDigit_digitChar (d : Nat) (h : d < 10) : (digitChar d).isDigit = true := by
  interval_cases d <;> decide

theorem natDigits_all_digits (n : Nat) : ∀ c ∈ natDigits n, c.isDigit = true := by
  induction n using Nat.strong_induction_on with
  | _ n ih =>
    rw [natDigits]
    split
    · intro c hc
      rcases List.mem_singleton.mp hc with rfl
      exact isDigit_digitChar n (by omega)
    · intro c hc
      rcases List.mem_append.mp hc with hc | hc
      · exact ih (n / 10) (Nat.div_lt_self (by omega) (by omega)) c hc
      · rcases List.mem_singleton.mp hc with rfl
        exact isDigit_digitChar (n % 10) (Nat.mod_lt n (by omega))

theorem natDigits_ne_nil (n : Nat) : natDigits n ≠ [] := by
  rw [natDigits]
  split
  · simp
  · simp

theorem digitsVal_append_digit (cs : List Char) (c : Char) :
    digitsVal (cs ++ [c]) = 10 * digitsVal cs + charVal c := by
  simp [digitsVal, List.foldl_append]

theorem digitsVal_natDigits (n : Nat) : digitsVal (natDigits n) = n := by
  induction n using Nat.strong_induction_on with
  | _ n ih =>
    rw [natDigits]
    split
    · next h =>
      simp [digitsVal, charVal_digitChar n h]
    · next h =>
      rw [digitsVal_append_digit, ih (n / 10) (Nat.div_lt_self (by omega) (by omega)),
        charVal_digitChar (n % 10) (Nat.mod_lt n (by omega))]
      omega

theorem digitsVal_replicate_zero (k : Nat) (cs : List Char) :
    digitsVal (List.replicate k '0' ++ cs) = digitsVal cs := by
  induction k with
  | zero => simp
  | succ k ih =>
    rw [List.replicate_succ, List.cons_append]
    show digitsVal (List.replicate k '0' ++ cs) = digitsVal cs
    exact ih

theorem takeWhile_eq_self_of_all {p : Char → Bool} :
    ∀ l : List Char, (∀ c ∈ l, p c = true) → l.takeWhile p = l := by
  intro l
  induction l with
  | nil => intro _; rfl
  | cons c rest ih =>
    intro h
    rw [List.takeWhile_cons, if_pos (h c (by simp))]
    rw [ih (fun x hx => h x (by simp [hx]))]

theorem extract_task_digits (ds : List Char) (hne : ds ≠ [])
    (hdig : ∀ c ∈ ds, c.isDigit = true) :
    extractTaskNum ("task-" ++ String.mk ds) = some (digitsVal ds) := by
  have hdata : ("task-" ++ String.mk ds).toList = "task-".toList ++ ds := rfl
  unfold extractTaskNum
  rw [hdata, List.take_left' (by rfl), List.drop_left' (by rfl), if_pos rfl,
    takeWhile_eq_self_of_all ds hdig, if_neg hne]

theorem maxTaskNum_foldl_le (ids : List String) :
    ∀ acc : Nat, acc ≤ ids.foldl
      (fun m i =>
        match extractTaskNum i with
        | some n => max m n
        | none => m) acc := by
  induction ids with
  | nil => intro acc; exact le_refl acc
  | cons i rest ih =>
    intro acc
    refine le_trans ?_ (ih _)
    cases h : extractTaskNum i with
    | none => simp [h]
    | some n => simp [h]

theorem extract_le_maxTaskNum_foldl (ids : List String) :
    ∀ (acc : Nat) (id : String) (k : Nat), id ∈ ids → extractTaskNum id = some k →
      k ≤ ids.foldl
        (fun m i =>
          match extractTaskNum i with
          | some n => max m n
          | none => m) acc := by
  induction ids with
  | nil => intro _ _ _ h; simp at h
  | cons i rest ih =>
    intro acc id k hmem hk
    rcases List.mem_cons.mp hmem with rfl | hmem'
    · rw [List.foldl_cons]
      refine le_trans ?_ (maxTaskNum_foldl_le rest _)
      rw [hk]
      simp
    · exact ih _ id k hmem' hk

theorem extract_generateNextId (allIds : List String) (padding : Option Nat) :
    extractTaskNum (generateNextId allIds padding) = some (maxTaskNum allIds + 1) := by
  cases padding with
  | none =>
    show extractTaskNum ("task-" ++ String.mk (natDigits (maxTaskNum allIds + 1))) = _
    rw [extract_task_digits _ (natDigits_ne_nil _) (natDigits_all_digits _),
      digitsVal_natDigits]
  | some p =>
    show extractTaskNum ("task-" ++ String.mk
      (if 0 < p then padStartZeros (natDigits (maxTaskNum allIds + 1)) p
        else natDigits (maxTaskNum allIds + 1))) = _
    by_cases hp : 0 < p
    · rw [if_pos hp]
      unfold padStartZeros
      rw [extract_task_digits _ ?_ ?_]
      · rw [digitsVal_replicate_zero, digitsVal_natDigits]
      · intro hnil
        exact natDigits_ne_nil (maxTaskNum allIds + 1) (List.append_eq_nil.mp hnil).2
      · intro c hc
        rcases List.mem_append.mp hc with hc | hc
        · rcases List.eq_of_mem_replicate hc with rfl
          decide
        · exact natDigits_all_digits _ c hc
    · rw [if_neg hp]
      rw [extract_task_digits _ (natDigits_ne_nil _) (natDigits_all_digits _),
        digitsVal_natDigits]

/-- Claim C9: with no parent, `generateNextId` returns `task-<n>` (optionally
zero-padded) with `n` strictly greater than the captured numeric part of every
collected id (content-store tasks, drafts, archived and completed tasks
combined into `allIds`), and the returned id never collides with any
collected id. -/
theorem c9_generateNextId_fresh (allIds : List String) (padding : Option Nat) :
    (∀ id ∈ allIds, ∀ k, extractTaskNum id = some k → k < maxTaskNum allIds + 1) ∧
    generateNextId allIds padding ∉ allIds := by
  constructor
  · intro id hid k hk
    have := extract_le_maxTaskNum_foldl allIds 0 id k hid hk
    unfold maxTaskNum
    omega
  · intro hmem
    have hex := extract_generateNextId allIds padding
    have := extract_le_maxTaskNum_foldl allIds 0 _ _ hmem hex
    unfold maxTaskNum at this
    omega

/-- Witness for C9: a repository whose active task was completed; the next id
continues past the completed id and collides with nothing. -/
theorem c9_generateNextId_fresh_witness :
    ("task-2" ∈ ["task-2", "task-11.1"] ∧ extractTaskNum "task-2" = some 2 ∧
      2 < maxTaskNum ["task-2", "task-11.1"] + 1) ∧
    generateNextId ["task-2", "task-11.1"] (some 3) ∉ ["task-2", "task-11.1"] :=
  ⟨⟨by decide, by decide,
      (c9_generateNextId_fresh ["task-2", "task-11.1"] (some 3)).1 "task-2" (by decide) 2
        (by decide)⟩,
    (c9_generateNextId_fresh ["task-2", "task-11.1"] (some 3)).2⟩

theorem keyGt_irrefl (k : Int × Int) : ¬ KeyGt k k := by
  rcases k with ⟨k1, k2⟩
  simp only [KeyGt]
  omega

theorem keyGt_trans {a b c : Int × Int} (h1 : KeyGt a b) (h2 : KeyGt b c) : KeyGt a c := by
  rcases a with ⟨a1, a2⟩
  rcases b with ⟨b1, b2⟩
  rcases c with ⟨c1, c2⟩
  simp only [KeyGt] at h1 h2 ⊢
  omega

theorem keyGt_of_ne {a b : Int × Int} (h : a ≠ b) : KeyGt a b ∨ KeyGt b a := by
  rcases a with ⟨a1, a2⟩
  rcases b with ⟨b1, b2⟩
  have h' : ¬(a1 = b1 ∧ a2 = b2) := by
    intro hc
    exact h (by rw [hc.1, hc.2])
  simp only [KeyGt]
  omega

theorem resolve_eq_key (statuses : List String) (strategy : ResolutionStrategy)
    (a b : Task) :
    resolveTaskConflict statuses strategy a b =
      if KeyGt (resolutionKey statuses strategy b) (resolutionKey statuses strategy a)
      then b else a := by
  cases strategy with
  | most_recent =>
    simp only [resolveTaskConflict, mostRecentOf, resolutionKey, KeyGt]
    by_cases h : recencyOf a < recencyOf b <;> simp [h]
  | most_progressed =>
    simp only [resolveTaskConflict, mostRecentOf, resolutionKey, KeyGt]
    by_cases h1 : statusRank statuses a.status < statusRank statuses b.status
    · simp [h1]
    · by_cases h2 : statusRank statuses b.status < statusRank statuses a.status
      · have h3 : ¬ statusRank statuses b.status = statusRank statuses a.status := by omega
        simp [h1, h2, h3]
      · have h3 : statusRank statuses b.status = statusRank statuses a.status := by omega
        by_cases h4 : recencyOf a < recencyOf b <;> simp [h1, h2, h3, h4]

theorem resolve_mem (statuses : List String) (strategy : ResolutionStrategy) (a b : Task) :
    resolveTaskConflict statuses strategy a b = a ∨
      resolveTaskConflict statuses strategy a b = b := by
  rw [resolve_eq_key]
  split
  · exact Or.inr rfl
  · exact Or.inl rfl

theorem foldl_resolve_mem (statuses : List String) (strategy : ResolutionStrategy)
    (l : List Task) : ∀ a : Task,
    l.foldl (resolveTaskConflict statuses strategy) a ∈ a :: l := by
  induction l with
  | nil => intro a; simp
  | cons b rest ih =>
    intro a
    rcases resolve_mem statuses strategy a b with hr | hr
    · rw [List.foldl_cons, hr]
      rcases List.mem_cons.mp (ih a) with h' | h' <;> simp [h']
    · rw [List.foldl_cons, hr]
      rcases List.mem_cons.mp (ih b) with h' | h' <;> simp [h']

theorem foldl_resolve_top (statuses : List String) (strategy : ResolutionStrategy)
    (l : List Task) : ∀ a : Task, ∀ x ∈ a :: l,
    ¬ KeyGt (resolutionKey statuses strategy x)
      (resolutionKey statuses strategy (l.foldl (resolveTaskConflict statuses strategy) a)) := by
  induction l with
  | nil =>
    intro a x hx
    rcases List.mem_singleton.mp hx with rfl
    exact keyGt_irrefl _
  | cons b rest ih =>
    intro a x hx
    rw [List.foldl_cons]
    by_cases hg : KeyGt (resolutionKey statuses strategy b) (resolutionKey statuses strategy a)
    · rw [show resolveTaskConflict statuses strategy a b = b by
        rw [resolve_eq_key, if_pos hg]]
      rcases List.mem_cons.mp hx with rfl | hx'
      · intro hxa
        exact ih b b (by simp) (keyGt_trans hg hxa)
      · exact ih b x hx'
    · rw [show resolveTaskConflict statuses strategy a b = a by
        rw [resolve_eq_key, if_neg hg]]
      rcases List.mem_cons.mp hx with rfl | hx'
      · exact ih x x (by simp)
      rcases List.mem_cons.mp hx' with rfl | hx''
      · intro hxb
        by_cases hk : resolutionKey statuses strategy x = resolutionKey statuses strategy a
        · exact ih a a (by simp) (hk ▸ hxb)
        · rcases keyGt_of_ne hk with h' | h'
          · exact hg h'
          · exact ih a a (by simp) (keyGt_trans h' hxb)
      · exact ih a x (by simp [hx''])

theorem top_eq (statuses : List String) (strategy : ResolutionStrategy)
    (P : Task → Prop) (t1 t2 : Task)
    (hk : ∀ x y, P x → P y → x ≠ y →
      resolutionKey statuses strategy x ≠ resolutionKey statuses strategy y)
    (h1 : P t1) (h2 : P t2)
    (top1 : ∀ x, P x → ¬ KeyGt (resolutionKey statuses strategy x)
      (resolutionKey statuses strategy t1))
    (top2 : ∀ x, P x → ¬ KeyGt (resolutionKey statuses strategy x)
      (resolutionKey statuses strategy t2)) : t1 = t2 := by
  by_contra hne
  rcases keyGt_of_ne (hk t1 t2 h1 h2 hne) with h | h
  · exact top2 t1 h1 h
  · exact top1 t2 h2 h

theorem foldl_mergeStep_some (statuses : List String) (strategy : ResolutionStrategy)
    (l : List Task) : ∀ a : Task,
    l.foldl (mergeStep statuses strategy) (some a) =
      some (l.foldl (resolveTaskConflict statuses strategy) a) := by
  induction l with
  | nil => intro a; rfl
  | cons b rest ih => intro a; exact ih (resolveTaskConflict statuses strategy a b)

theorem foldMerge_lookup (statuses : List String) (strategy : ResolutionStrategy)
    (ts : List Task) : ∀ (m : List (String × Task)) (id : String),
    mapGet? (foldMerge statuses strategy m ts) id =
      (ts.filter (fun t => t.id = id)).foldl (mergeStep statuses strategy) (mapGet? m id) := by
  induction ts with
  | nil => intro m id; rfl
  | cons c rest ih =>
    intro m id
    have hstep : mapGet?
        (match mapGet? m c.id with
          | none => mapSet m c.id c
          | some existing => mapSet m c.id (resolveTaskConflict statuses strategy existing c))
        id =
        if c.id = id then mergeStep statuses strategy (mapGet? m id) c else mapGet? m id := by
      by_cases hc : c.id = id
      · subst hc
        cases hm : mapGet? m c.id with
        | none => simp [hm, mergeStep, mapGet?_set_self]
        | some w => simp [hm, mergeStep, mapGet?_set_self]
      · cases hm : mapGet? m c.id with
        | none => simp [hc, mapGet?_set_ne m c.id id c (Ne.symm hc)]
        | some w => simp [hc, mapGet?_set_ne m c.id id _ (Ne.symm hc)]
    show mapGet? (foldMerge statuses strategy
      (match mapGet? m c.id with
        | none => mapSet m c.id c
        | some existing => mapSet m c.id (resolveTaskConflict statuses strategy existing c))
      rest) id = _
    rw [ih, hstep]
    by_cases hc : c.id = id
    · rw [if_pos hc, List.filter_cons_of_pos (by simp [hc]), List.foldl_cons]
    · rw [if_neg hc, List.filter_cons_of_neg (by simp [hc])]

theorem seed_lookup_mem (locals : List Task) (id : String) :
    ∀ (m : List (String × Task)) (a : Task),
    mapGet? (locals.foldl (fun m t => mapSet m t.id (localize t)) m) id = some a →
    (a ∈ locals.map localize ∧ a.id = id) ∨ mapGet? m id = some a := by
  induction locals with
  | nil => intro m a h; exact Or.inr h
  | cons t rest ih =>
    intro m a h
    rcases ih (mapSet m t.id (localize t)) a h with h' | h'
    · exact Or.inl ⟨by simp [h'.1], h'.2⟩
    · by_cases ht : t.id = id
      · subst ht
        rw [mapGet?_set_self] at h'
        cases h'
        exact Or.inl ⟨by simp, rfl⟩
      · rw [mapGet?_set_ne m t.id id _ (Ne.symm ht)] at h'
        exact Or.inr h'

/-- C1 counterexample: a branch copy and a remote copy of the same task with
equal resolution keys (same status, same timestamp).  Folding branch-then-
remote keeps the branch copy, folding remote-then-branch keeps the remote
copy, so the two final maps differ at task-1. -/
theorem c1_merge_order_counterexample :
    mapGet? (mergeTasks ["To Do", "In Progress", "Done"] ResolutionStrategy.most_progressed
      [] [branchCopy1] [remoteCopy1]) "task-1" ≠
    mapGet? (mergeTasksRemoteFirst ["To Do", "In Progress", "Done"]
      ResolutionStrategy.most_progressed [] [branchCopy1] [remoteCopy1]) "task-1" := by
  decide

/-- Claim C1 (amended): provided no two distinct candidates for the same id
compare equal under the resolution policy (distinct recency for
`most_recent`; distinct (status-rank, recency) pairs for `most_progressed`),
the merge produces the same final map — pointwise at every id — whether the
local-branch collection is folded before the remote collection or after it.
On ties the fold keeps whichever candidate arrived first, so the order then
matters (see the counterexample). -/
theorem c1_merge_order_amended (statuses : List String) (strategy : ResolutionStrategy)
    (locals branchTasks remoteTasks : List Task)
    (hkeys : ∀ x ∈ locals.map localize ++ branchTasks ++ remoteTasks,
      ∀ y ∈ locals.map localize ++ branchTasks ++ remoteTasks,
      x.id = y.id → x ≠ y →
      resolutionKey statuses strategy x ≠ resolutionKey statuses strategy y) :
    ∀ id, mapGet? (mergeTasks statuses strategy locals branchTasks remoteTasks) id =
      mapGet? (mergeTasksRemoteFirst statuses strategy locals branchTasks remoteTasks) id := by
  intro id
  show mapGet? (foldMerge statuses strategy
      (foldMerge statuses strategy (seedMap locals) branchTasks) remoteTasks) id =
    mapGet? (foldMerge statuses strategy
      (foldMerge statuses strategy (seedMap locals) remoteTasks) branchTasks) id
  rw [foldMerge_lookup, foldMerge_lookup, foldMerge_lookup, foldMerge_lookup,
    ← List.foldl_append, ← List.foldl_append]
  set Bf := branchTasks.filter (fun t => decide (t.id = id)) with hBdef
  set Rf := remoteTasks.filter (fun t => decide (t.id = id)) with hRdef
  have hBmem : ∀ x ∈ Bf, x ∈ branchTasks ∧ x.id = id := by
    intro x hx
    rw [hBdef] at hx
    simpa using List.mem_filter.mp hx
  have hRmem : ∀ x ∈ Rf, x ∈ remoteTasks ∧ x.id = id := by
    intro x hx
    rw [hRdef] at hx
    simpa using List.mem_filter.mp hx
  have hseed : ∀ a, mapGet? (seedMap locals) id = some a →
      a ∈ locals.map localize ∧ a.id = id := by
    intro a h
    rcases seed_lookup_mem locals id [] a h with h' | h'
    · exact h'
    · simp [mapGet?] at h'
  cases hs0 : mapGet? (seedMap locals) id with
  | some a =>
    rw [foldl_mergeStep_some, foldl_mergeStep_some]
    have haP : a ∈ locals.map localize ++ branchTasks ++ remoteTasks ∧ a.id = id :=
      ⟨by simp [(hseed a hs0).1], (hseed a hs0).2⟩
    have hfull : ∀ z ∈ a :: (Bf ++ Rf),
        z ∈ locals.map localize ++ branchTasks ++ remoteTasks ∧ z.id = id := by
      intro z hz
      rcases List.mem_cons.mp hz with rfl | hz'
      · exact haP
      rcases List.mem_append.mp hz' with hz'' | hz''
      · exact ⟨by simp [(hBmem z hz'').1], (hBmem z hz'').2⟩
      · exact ⟨by simp [(hRmem z hz'').1], (hRmem z hz'').2⟩
    have hswap : ∀ z : Task, z ∈ a :: (Rf ++ Bf) ↔ z ∈ a :: (Bf ++ Rf) := by
      intro z
      simp only [List.mem_cons, List.mem_append]
      tauto
    congr 1
    refine top_eq statuses strategy (fun z => z ∈ a :: (Bf ++ Rf)) _ _ ?_ ?_ ?_ ?_ ?_
    · intro x y hx hy hne
      exact hkeys x (hfull x hx).1 y (hfull y hy).1
        (((hfull x hx).2).trans ((hfull y hy).2).symm) hne
    · exact foldl_resolve_mem statuses strategy (Bf ++ Rf) a
    · exact (hswap _).mp (foldl_resolve_mem statuses strategy (Rf ++ Bf) a)
    · exact fun x hx => foldl_resolve_top statuses strategy (Bf ++ Rf) a x hx
    · exact fun x hx =>
        foldl_resolve_top statuses strategy (Rf ++ Bf) a x ((hswap x).mpr hx)
  | none =>
    cases hB : Bf with
    | nil =>
      simp
    | cons b bs =>
      cases hR : Rf with
      | nil =>
        simp
      | cons r rs =>
        have hL : ((b :: bs) ++ (r :: rs)).foldl (mergeStep statuses strategy) none =
            some ((bs ++ r :: rs).foldl (resolveTaskConflict statuses strategy) b) := by
          rw [List.cons_append, List.foldl_cons]
          exact foldl_mergeStep_some statuses strategy (bs ++ r :: rs) b
        have hRw : ((r :: rs) ++ (b :: bs)).foldl (mergeStep statuses strategy) none =
            some ((rs ++ b :: bs).foldl (resolveTaskConflict statuses strategy) r) := by
          rw [List.cons_append, List.foldl_cons]
          exact foldl_mergeStep_some statuses strategy (rs ++ b :: bs) r
        rw [hL, hRw]
        have hfull : ∀ z ∈ b :: (bs ++ r :: rs),
            z ∈ locals.map localize ++ branchTasks ++ remoteTasks ∧ z.id = id := by
          intro z hz
          have hz' : z ∈ Bf ∨ z ∈ Rf := by
            rw [hB, hR]
            simp only [List.mem_cons, List.mem_append] at hz ⊢
            tauto
          rcases hz' with hz'' | hz''
          · exact ⟨by simp [(hBmem z hz'').1], (hBmem z hz'').2⟩
          · exact ⟨by simp [(hRmem z hz'').1], (hRmem z hz'').2⟩
        have hswap : ∀ z : Task, z ∈ r :: (rs ++ b :: bs) ↔ z ∈ b :: (bs ++ r :: rs) := by
          intro z
          simp only [List.mem_cons, List.mem_append]
          tauto
        congr 1
        refine top_eq statuses strategy (fun z => z ∈ b :: (bs ++ r :: rs)) _ _ ?_ ?_ ?_ ?_ ?_
        · intro x y hx hy hne
          exact hkeys x (hfull x hx).1 y (hfull y hy).1
            (((hfull x hx).2).trans ((hfull y hy).2).symm) hne
        · exact foldl_resolve_mem statuses strategy (bs ++ r :: rs) b
        · exact (hswap _).mp (foldl_resolve_mem statuses strategy (rs ++ b :: bs) r)
        · exact fun x hx => foldl_resolve_top statuses strategy (bs ++ r :: rs) b x hx
        · exact fun x hx =>
            foldl_resolve_top statuses strategy (rs ++ b :: bs) r x ((hswap x).mpr hx)

/-- Witness for C1 at a concrete no-tie instance: the remote copy is strictly
fresher, so both fold orders select it. -/
theorem c1_merge_order_amended_witness :
    mapGet? (mergeTasks ["To Do", "In Progress", "Done"] ResolutionStrategy.most_progressed
      [] [branchCopy1] [remoteCopy2]) "task-1" =
    mapGet? (mergeTasksRemoteFirst ["To Do", "In Progress", "Done"]
      ResolutionStrategy.most_progressed [] [branchCopy1] [remoteCopy2]) "task-1" :=
  c1_merge_order_amended ["To Do", "In Progress", "Done"]
    ResolutionStrategy.most_progressed [] [branchCopy1] [remoteCopy2] (by decide) "task-1"

theorem mapSet_keys {α : Type} : ∀ (m : List (String × α)) (k : String) (v : α),
    (mapSet m k v).map Prod.fst =
      if k ∈ m.map Prod.fst then m.map Prod.fst else m.map Prod.fst ++ [k] := by
  intro m
  induction m with
  | nil => intro k v; simp [mapSet]
  | cons p rest ih =>
    intro k v
    by_cases hp : p.1 = k
    · simp [mapSet, hp]
    · have hne : ¬ k = p.1 := fun h => hp h.symm
      simp only [mapSet, if_neg hp, List.map_cons, ih, List.mem_cons]
      by_cases hk : k ∈ rest.map Prod.fst
      · simp [hk, hne]
      · simp [hk, hne]

theorem mapSet_keys_nodup {α : Type} (m : List (String × α)) (k : String) (v : α)
    (h : (m.map Prod.fst).Nodup) : ((mapSet m k v).map Prod.fst).Nodup := by
  rw [mapSet_keys]
  by_cases hk : k ∈ m.map Prod.fst
  · simpa [hk] using h
  · simp only [if_neg hk, List.nodup_append]
    refine ⟨h, List.nodup_singleton k, ?_⟩
    intro a ha hak
    rw [List.mem_singleton] at hak
    subst hak
    exact hk ha

theorem mapSet_vals {α : Type} (P : String → α → Prop) :
    ∀ (m : List (String × α)) (k : String) (v : α),
    (∀ p ∈ m, P p.1 p.2) → P k v → ∀ p ∈ mapSet m k v, P p.1 p.2 := by
  intro m
  induction m with
  | nil =>
    intro k v _ hv p hp
    rcases List.mem_singleton.mp hp with rfl
    exact hv
  | cons q rest ih =>
    intro k v hm hv p hp
    by_cases hq : q.1 = k
    · rw [mapSet, if_pos hq] at hp
      rcases List.mem_cons.mp hp with rfl | hp'
      · exact hv
      · exact hm p (by simp [hp'])
    · rw [mapSet, if_neg hq] at hp
      rcases List.mem_cons.mp hp with rfl | hp'
      · exact hm p (by simp)
      · exact ih k v (fun r hr => hm r (by simp [hr])) hv p hp'

theorem mapGet?_vals {α : Type} (P : String → α → Prop) :
    ∀ (m : List (String × α)) (k : String) (v : α),
    (∀ p ∈ m, P p.1 p.2) → mapGet? m k = some v → P k v := by
  intro m
  induction m with
  | nil => intro k v _ h; simp [mapGet?] at h
  | cons q rest ih =>
    intro k v hm h
    rw [mapGet?] at h
    by_cases hq : q.1 = k
    · rw [if_pos hq] at h
      cases h
      exact hq ▸ hm q (by simp)
    · rw [if_neg hq] at h
      exact ih k v (fun r hr => hm r (by simp [hr])) h

theorem goodMap_set (m : List (String × Task)) (k : String) (v : Task)
    (hm : goodMap m) (hv : v.id = k) : goodMap (mapSet m k v) :=
  ⟨mapSet_keys_nodup m k v hm.1,
    mapSet_vals (fun key t => t.id = key) m k v hm.2 hv⟩

theorem goodMap_foldMerge (statuses : List String) (strategy : ResolutionStrategy)
    (ts : List Task) : ∀ m : List (String × Task), goodMap m →
    goodMap (foldMerge statuses strategy m ts) := by
  induction ts with
  | nil => intro m hm; exact hm
  | cons c rest ih =>
    intro m hm
    show goodMap (foldMerge statuses strategy
      (match mapGet? m c.id with
        | none => mapSet m c.id c
        | some existing => mapSet m c.id (resolveTaskConflict statuses strategy existing c))
      rest)
    apply ih
    cases hg : mapGet? m c.id with
    | none => exact goodMap_set m c.id c hm rfl
    | some w =>
      have hw : w.id = c.id := mapGet?_vals (fun key t => t.id = key) m c.id w hm.2 hg
      show goodMap (mapSet m c.id (resolveTaskConflict statuses strategy w c))
      rcases resolve_mem statuses strategy w c with hr | hr
      · rw [hr]; exact goodMap_set m c.id w hm hw
      · rw [hr]; exact goodMap_set m c.id c hm rfl

theorem goodMap_seedMap (locals : List Task) : goodMap (seedMap locals) := by
  have haux : ∀ (ls : List Task) (m : List (String × Task)), goodMap m →
      goodMap (ls.foldl (fun m t => mapSet m t.id (localize t)) m) := by
    intro ls
    induction ls with
    | nil => intro m hm; exact hm
    | cons t rest ih =>
      intro m hm
      exact ih _ (goodMap_set m t.id (localize t) hm rfl)
  exact haux locals [] ⟨List.nodup_nil, by simp⟩

theorem goodMap_mergeTasks (statuses : List String) (strategy : ResolutionStrategy)
    (locals branchTasks remoteTasks : List Task) :
    goodMap (mergeTasks statuses strategy locals branchTasks remoteTasks) :=
  goodMap_foldMerge statuses strategy remoteTasks _
    (goodMap_foldMerge statuses strategy branchTasks _ (goodMap_seedMap locals))

theorem mapValues_ids_nodup (m : List (String × Task)) (hm : goodMap m) :
    ((mapValues m).map (fun t => t.id)).Nodup := by
  have : (mapValues m).map (fun t => t.id) = m.map Prod.fst := by
    unfold mapValues
    rw [List.map_map]
    exact List.map_congr_left (fun p hp => hm.2 p hp)
  rw [this]
  exact hm.1

/-- Claim C7: the task list returned by `loadTasks` contains at most one task
per id — the merged map is keyed by id, every stored task carries its key as
id, and the state-snapshot filter only removes elements. -/
theorem c7_loadTasks_unique_ids (checkActiveBranches : Bool) (statuses : List String)
    (strategy : ResolutionStrategy) (locals branchTasks remoteTasks : List Task)
    (stateEntries : List BranchTaskStateEntry) :
    ((loadTasksModel checkActiveBranches statuses strategy locals branchTasks remoteTasks
      stateEntries).map (fun t => t.id)).Nodup := by
  have hmerged : ((mapValues (mergeTasks statuses strategy locals branchTasks
      remoteTasks)).map (fun t => t.id)).Nodup :=
    mapValues_ids_nodup _ (goodMap_mergeTasks statuses strategy locals branchTasks remoteTasks)
  unfold loadTasksModel
  by_cases hc : checkActiveBranches = false
  · simpa [hc] using hmerged
  · rw [if_neg hc]
    unfold filterTasksByStateSnapshots
    exact List.Nodup.sublist
      (List.Sublist.map (fun t : Task => t.id) (List.filter_sublist _)) hmerged

theorem assignSeq_isSome (step : Int) :
    ∀ (l : List Task) (start : Int), ∀ t ∈ assignSeq start step l, t.ordinal.isSome = true := by
  intro l
  induction l with
  | nil => intro start t ht; simp [assignSeq] at ht
  | cons c rest ih =>
    intro start t ht
    rcases List.mem_cons.mp ht with rfl | ht'
    · rfl
    · exact ih (start + step) t ht'

theorem assignSeq_lb (step : Int) (hstep : 0 < step) :
    ∀ (l : List Task) (start : Int), ∀ t ∈ assignSeq start step l,
      start ≤ t.ordinal.getD 0 := by
  intro l
  induction l with
  | nil => intro start t ht; simp [assignSeq] at ht
  | cons c rest ih =>
    intro start t ht
    rcases List.mem_cons.mp ht with rfl | ht'
    · simp
    · have := ih (start + step) t ht'
      omega

theorem assignSeq_pairwise (step : Int) (hstep : 0 < step) :
    ∀ (l : List Task) (start : Int),
    (assignSeq start step l).Pairwise
      (fun a b : Task => a.ordinal.getD 0 < b.ordinal.getD 0) := by
  intro l
  induction l with
  | nil => intro start; simp [assignSeq]
  | cons c rest ih =>
    intro start
    rw [assignSeq]
    refine List.Pairwise.cons ?_ (ih (start + step))
    intro b hb
    have := assignSeq_lb step hstep rest (start + step) b hb
    simp only [Option.getD_some]
    omega

theorem sweep_spec (step : Int) (hstep : 0 < step) (start : Int) :
    ∀ (l : List Task) (prev : Option Int),
    (∀ t ∈ sweepOrdinals step prev start l, t.ordinal.isSome = true ∧
      ∀ p, prev = some p → p < t.ordinal.getD 0) ∧
    (sweepOrdinals step prev start l).Pairwise
      (fun a b : Task => a.ordinal.getD 0 < b.ordinal.getD 0) := by
  intro l
  induction l with
  | nil => intro prev; constructor <;> simp [sweepOrdinals]
  | cons c rest ih =>
    intro prev
    cases hc : c.ordinal with
    | some o =>
      cases hprev : prev with
      | none =>
        simp only [sweepOrdinals, hc]
        obtain ⟨htail, hpw⟩ := ih (some o)
        constructor
        · intro t ht
          rcases List.mem_cons.mp ht with rfl | ht'
          · exact ⟨by simp [hc], by simp⟩
          · exact ⟨(htail t ht').1, by simp⟩
        · refine List.Pairwise.cons ?_ hpw
          intro b hb
          have := (htail b hb).2 o rfl
          simp [hc]
          omega
      | some p =>
        simp only [sweepOrdinals, hc]
        by_cases hpo : p < o
        · rw [if_pos hpo]
          obtain ⟨htail, hpw⟩ := ih (some o)
          constructor
          · intro t ht
            rcases List.mem_cons.mp ht with rfl | ht'
            · refine ⟨by simp [hc], ?_⟩
              intro q hq
              cases hq
              simp [hc]
              omega
            · refine ⟨(htail t ht').1, ?_⟩
              intro q hq
              cases hq
              have := (htail t ht').2 o rfl
              simp [hc] at this ⊢
              omega
          · refine List.Pairwise.cons ?_ hpw
            intro b hb
            have := (htail b hb).2 o rfl
            simp [hc]
            omega
        · rw [if_neg hpo]
          obtain ⟨htail, hpw⟩ := ih (some (p + step))
          constructor
          · intro t ht
            rcases List.mem_cons.mp ht with rfl | ht'
            · refine ⟨by simp, ?_⟩
              intro q hq
              cases hq
              simp
              omega
            · refine ⟨(htail t ht').1, ?_⟩
              intro q hq
              cases hq
              have := (htail t ht').2 (p + step) rfl
              omega
          · refine List.Pairwise.cons ?_ hpw
            intro b hb
            have := (htail b hb).2 (p + step) rfl
            simp
            omega
    | none =>
      cases hprev : prev with
      | none =>
        simp only [sweepOrdinals, hc]
        obtain ⟨htail, hpw⟩ := ih (some start)
        constructor
        · intro t ht
          rcases List.mem_cons.mp ht with rfl | ht'
          · exact ⟨by simp, by simp⟩
          · exact ⟨(htail t ht').1, by simp⟩
        · refine List.Pairwise.cons ?_ hpw
          intro b hb
          have := (htail b hb).2 start rfl
          simp
          omega
      | some p =>
        simp only [sweepOrdinals, hc]
        obtain ⟨htail, hpw⟩ := ih (some (p + step))
        constructor
        · intro t ht
          rcases List.mem_cons.mp ht with rfl | ht'
          · refine ⟨by simp, ?_⟩
            intro q hq
            cases hq
            simp
            omega
          · refine ⟨(htail t ht').1, ?_⟩
            intro q hq
            cases hq
            have := (htail t ht').2 (p + step) rfl
            omega
        · refine List.Pairwise.cons ?_ hpw
          intro b hb
          have := (htail b hb).2 (p + step) rfl
          simp
          omega

/-- Claim C3: with a positive spacing step, the bucket after
`resolveOrdinalConflicts` assigns every task an ordinal, and the ordinals are
strictly increasing along the requested order — hence any two distinct tasks
in the bucket carry different ordinals. -/
theorem c3_resolveOrdinalConflicts_strict (tasks : List Task)
    (defaultStep startOrdinal : Int) (forceSequential : Bool)
    (hstep : 0 < defaultStep) :
    (∀ t ∈ resolvedBucket tasks defaultStep startOrdinal forceSequential,
      t.ordinal.isSome = true) ∧
    (resolvedBucket tasks defaultStep startOrdinal forceSequential).Pairwise
      (fun a b : Task => a.ordinal.getD 0 < b.ordinal.getD 0) := by
  unfold resolvedBucket
  by_cases hcond : (forceSequential || hasAdjacentSharedOrdinal tasks) = true
  · rw [if_pos hcond]
    exact ⟨assignSeq_isSome defaultStep tasks startOrdinal,
      assignSeq_pairwise defaultStep hstep tasks startOrdinal⟩
  · rw [if_neg hcond]
    obtain ⟨hsome, hpw⟩ := sweep_spec defaultStep hstep startOrdinal tasks none
    exact ⟨fun t ht => (hsome t ht).1, hpw⟩

/-- Witness for C3 at the spec's own example: a bucket `[1000, 1000]` with
`forceSequential` resolves to ordinals `[1000, 2000]` in original order. -/
theorem c3_resolveOrdinalConflicts_strict_witness :
    (0 : Int) < 1000 ∧
    ((∀ t ∈ resolvedBucket [bucketTaskA, bucketTaskB] 1000 1000 true,
        t.ordinal.isSome = true) ∧
      (resolvedBucket [bucketTaskA, bucketTaskB] 1000 1000 true).Pairwise
        (fun a b : Task => a.ordinal.getD 0 < b.ordinal.getD 0)) ∧
    (resolvedBucket [bucketTaskA, bucketTaskB] 1000 1000 true).map
      (fun t => t.ordinal) = [some 1000, some 2000] :=
  ⟨by decide,
    c3_resolveOrdinalConflicts_strict [bucketTaskA, bucketTaskB] 1000 1000 true (by decide),
    by decide⟩

theorem readyTask_iff (A placed : List String) (t : Task) :
    readyTask A placed t = true ↔ ∀ d ∈ t.dependencies, d ∉ A ∨ d ∈ placed := by
  unfold readyTask
  simp [List.all_eq_true]

theorem computeWaves_succ (fuel : Nat) (A placed : List String) (remaining : List Task)
    (idx : Nat) :
    computeWaves (fuel + 1) A placed remaining idx =
      if (remaining.filter (readyTask A placed)).isEmpty then ([], remaining)
      else ((idx, remaining.filter (readyTask A placed)) ::
          (computeWaves fuel A
            (placed ++ (remaining.filter (readyTask A placed)).map (fun t => t.id))
            (remaining.filter (fun t => !readyTask A placed t)) (idx + 1)).1,
        (computeWaves fuel A
          (placed ++ (remaining.filter (readyTask A placed)).map (fun t => t.id))
          (remaining.filter (fun t => !readyTask A placed t)) (idx + 1)).2) := rfl

theorem computeWaves_idx_le (A : List String) :
    ∀ (fuel : Nat) (placed : List String) (remaining : List Task) (idx k : Nat)
      (ts : List Task),
    (k, ts) ∈ (computeWaves fuel A placed remaining idx).1 → idx ≤ k := by
  intro fuel
  induction fuel with
  | zero => intro placed remaining idx k ts h; simp [computeWaves] at h
  | succ fuel ih =>
    intro placed remaining idx k ts h
    rw [computeWaves_succ] at h
    by_cases hre : (remaining.filter (readyTask A placed)).isEmpty
    · rw [if_pos hre] at h
      simp at h
    · rw [if_neg hre] at h
      rcases List.mem_cons.mp h with h' | h'
      · injection h' with h1 _
        omega
      · have := ih _ _ _ _ _ h'
        omega

theorem computeWaves_dep_earlier (A : List String) :
    ∀ (fuel : Nat) (placed : List String) (remaining : List Task) (idx k : Nat)
      (ts : List Task) (t : Task) (d : String),
    (k, ts) ∈ (computeWaves fuel A placed remaining idx).1 → t ∈ ts →
    d ∈ t.dependencies → d ∈ A →
    d ∈ placed ∨ ∃ j ws, (j, ws) ∈ (computeWaves fuel A placed remaining idx).1 ∧ j < k ∧
      ∃ u ∈ ws, u.id = d := by
  intro fuel
  induction fuel with
  | zero => intro placed remaining idx k ts t d h; simp [computeWaves] at h
  | succ fuel ih =>
    intro placed remaining idx k ts t d hk ht hd hA
    rw [computeWaves_succ] at hk ⊢
    by_cases hre : (remaining.filter (readyTask A placed)).isEmpty
    · rw [if_pos hre] at hk
      simp at hk
    · rw [if_neg hre] at hk ⊢
      rcases List.mem_cons.mp hk with h' | h'
      · injection h' with h1 h2
        subst h2
        have hready := (List.mem_filter.mp ht).2
        rcases (readyTask_iff A placed t).mp hready d hd with habs | hpl
        · exact absurd hA habs
        · exact Or.inl hpl
      · rcases ih _ _ _ _ _ t d h' ht hd hA with hpl | ⟨j, ws, hjw, hjk, hu⟩
        · rcases List.mem_append.mp hpl with hpl' | hpl'
          · exact Or.inl hpl'
          · right
            refine ⟨idx, remaining.filter (readyTask A placed),
              List.mem_cons_self _ _, ?_, ?_⟩
            · have := computeWaves_idx_le A fuel _ _ _ k ts h'
              omega
            · rcases List.mem_map.mp hpl' with ⟨u, hu, huid⟩
              exact ⟨u, hu, huid⟩
        · exact Or.inr ⟨j, ws, List.mem_cons_of_mem _ hjw, hjk, hu⟩

theorem computeWaves_perm (A : List String) :
    ∀ (fuel : Nat) (placed : List String) (remaining : List Task) (idx : Nat),
    (((computeWaves fuel A placed remaining idx).1.map Prod.snd).flatten ++
      (computeWaves fuel A placed remaining idx).2).Perm remaining := by
  intro fuel
  induction fuel with
  | zero => intro placed remaining idx; simp [computeWaves]
  | succ fuel ih =>
    intro placed remaining idx
    rw [computeWaves_succ]
    by_cases hre : (remaining.filter (readyTask A placed)).isEmpty
    · rw [if_pos hre]
      simp
    · rw [if_neg hre]
      simp only [List.map_cons, List.flatten_cons, List.append_assoc]
      exact (List.Perm.append_left _ (ih _ _ _)).trans
        (List.filter_append_perm (readyTask A placed) remaining)

theorem waves_id_unique :
    ∀ S : List (Nat × List Task),
    ((S.map Prod.snd).flatten.map (fun t => t.id)).Nodup →
    ∀ (j j' : Nat) (ws ws' : List Task) (d : String), (j, ws) ∈ S → (j', ws') ∈ S →
    (∃ u ∈ ws, u.id = d) → (∃ u' ∈ ws', u'.id = d) → j = j' := by
  intro S
  induction S with
  | nil => intro _ j j' ws ws' d h; simp at h
  | cons hd S' ih =>
    intro hnd j j' ws ws' d hjw hjw' hu hu'
    have hsplit : (hd.2.map (fun t => t.id) ++
        ((S'.map Prod.snd).flatten.map (fun t => t.id))).Nodup := by
      simpa using hnd
    obtain ⟨hnd1, hnd2, hdisj⟩ := List.nodup_append.mp hsplit
    have hflat : ∀ (jj : Nat) (w : List Task), (jj, w) ∈ S' → (∃ u ∈ w, u.id = d) →
        d ∈ (S'.map Prod.snd).flatten.map (fun t => t.id) := by
      intro jj w hw ⟨u, hu1, hu2⟩
      refine List.mem_map.mpr ⟨u, ?_, hu2⟩
      exact List.mem_flatten.mpr ⟨w, List.mem_map.mpr ⟨(jj, w), hw, rfl⟩, hu1⟩
    have hhead : ∀ (jj : Nat) (w : List Task), (jj, w) = hd → (∃ u ∈ w, u.id = d) →
        d ∈ hd.2.map (fun t => t.id) := by
      intro jj w hw ⟨u, hu1, hu2⟩
      have hw2 : w = hd.2 := congrArg Prod.snd hw
      exact List.mem_map.mpr ⟨u, hw2 ▸ hu1, hu2⟩
    rcases List.mem_cons.mp hjw with h1 | h1 <;> rcases List.mem_cons.mp hjw' with h2 | h2
    · have e1 : j = hd.1 := congrArg Prod.fst h1
      have e2 : j' = hd.1 := congrArg Prod.fst h2
      omega
    · exact absurd (hflat j' ws' h2 hu') (fun hc => hdisj (hhead j ws h1 hu) hc)
    · exact absurd (hflat j ws h1 hu) (fun hc => hdisj (hhead j' ws' h2 hu') hc)
    · exact ih hnd2 j j' ws ws' d h1 h2 hu hu'

theorem computeSequences_wave1 (active : List Task) (t : Task) (ht : t ∈ active)
    (habs : ∀ d ∈ t.dependencies, d ∉ active.map (fun t => t.id)) :
    ∃ ws, (computeSequences active).sequences.head? = some (1, ws) ∧ t ∈ ws := by
  obtain ⟨n, hn⟩ : ∃ n, active.length = n + 1 := by
    cases active with
    | nil => cases ht
    | cons a r => exact ⟨r.length, rfl⟩
  have hready : t ∈ active.filter (readyTask (active.map (fun t => t.id)) []) :=
    List.mem_filter.mpr ⟨ht,
      (readyTask_iff _ _ t).mpr (fun d hd => Or.inl (habs d hd))⟩
  have hne : ¬ (active.filter (readyTask (active.map (fun t => t.id)) [])).isEmpty := by
    intro hcontra
    rw [List.isEmpty_iff] at hcontra
    rw [hcontra] at hready
    cases hready
  unfold computeSequences
  rw [hn, computeWaves_succ, if_neg hne]
  refine ⟨active.filter (readyTask (active.map (fun t => t.id)) []), ?_, hready⟩
  rfl

/-- Claim C4: `computeSequences` places every sequenced task in a wave whose
index is strictly greater than the wave of each of its dependencies present
in the active set (the dependency is itself sequenced, in an earlier wave,
and its wave is unique when ids are unique); a task all of whose dependencies
are absent from the active set is placed in wave 1. -/
theorem c4_computeSequences_waves (active : List Task)
    (hnd : (active.map (fun t => t.id)).Nodup) :
    (∀ k ts, (k, ts) ∈ (computeSequences active).sequences → ∀ t ∈ ts,
      ∀ d ∈ t.dependencies, d ∈ active.map (fun t => t.id) →
      ∃ j ws, (j, ws) ∈ (computeSequences active).sequences ∧ j < k ∧
        ∃ u ∈ ws, u.id = d) ∧
    (∀ (j j' : Nat) (ws ws' : List Task) (d : String),
      (j, ws) ∈ (computeSequences active).sequences →
      (j', ws') ∈ (computeSequences active).sequences →
      (∃ u ∈ ws, u.id = d) → (∃ u' ∈ ws', u'.id = d) → j = j') ∧
    (∀ t ∈ active, (∀ d ∈ t.dependencies, d ∉ active.map (fun t => t.id)) →
      ∃ ws, (computeSequences active).sequences.head? = some (1, ws) ∧ t ∈ ws) := by
  refine ⟨?_, ?_, fun t ht habs => computeSequences_wave1 active t ht habs⟩
  · intro k ts hk t ht d hd hA
    have hk' : (k, ts) ∈ (computeWaves active.length (active.map (fun t => t.id))
        [] active 1).1 := hk
    have h := computeWaves_dep_earlier (active.map (fun t => t.id))
      active.length [] active 1 k ts t d hk' ht hd hA
    rcases h with hpl | h'
    · cases hpl
    · exact h'
  · have hperm := computeWaves_perm (active.map (fun t => t.id))
      active.length [] active 1
    have hnd' : ((((computeWaves active.length (active.map (fun t => t.id)) [] active 1).1.map
        Prod.snd).flatten ++
        (computeWaves active.length (active.map (fun t => t.id)) [] active 1).2).map
          (fun t => t.id)).Nodup := by
      rw [List.Perm.nodup_iff (List.Perm.map _ hperm)]
      exact hnd
    rw [List.map_append] at hnd'
    have hu := waves_id_unique _ (List.nodup_append.mp hnd').1
    exact fun j j' ws ws' d h1 h2 => hu j j' ws ws' d h1 h2

/-- Witness for C4: in the A/B/C example (B depends on A, C on both), task B
sits in wave 2 and its dependency task-1 is found in a strictly earlier wave;
A, with no dependencies, is in wave 1. -/
theorem c4_computeSequences_waves_witness :
    (seqActive.map (fun t => t.id)).Nodup ∧
    (∃ j ws, (j, ws) ∈ (computeSequences seqActive).sequences ∧ j < 2 ∧
      ∃ u ∈ ws, u.id = "task-1") ∧
    (∃ ws, (computeSequences seqActive).sequences.head? = some (1, ws) ∧ seqTaskA ∈ ws) := by
  have h := c4_computeSequences_waves seqActive (by decide)
  refine ⟨by decide, ?_, ?_⟩
  · exact h.1 2 [seqTaskB] (by decide) seqTaskB (by decide) "task-1" (by decide) (by decide)
  · exact h.2.2 seqTaskA (by decide) (by decide)

theorem firstDup_none_not_seen :
    ∀ (l seen : List String), firstDup seen l = none → ∀ y ∈ l, y ∉ seen := by
  intro l
  induction l with
  | nil => intro seen _ y hy; cases hy
  | cons x xs ih =>
    intro seen h y hy
    rw [firstDup] at h
    by_cases hc : seen.contains x = true
    · rw [if_pos hc] at h
      cases h
    · rw [if_neg hc] at h
      rcases List.mem_cons.mp hy with rfl | hy'
      · intro hmem
        exact hc (by simpa using hmem)
      · have := ih (x :: seen) h y hy'
        intro hmem
        exact this (by simp [hmem])

theorem nodup_of_firstDup_none :
    ∀ (l seen : List String), firstDup seen l = none → l.Nodup := by
  intro l
  induction l with
  | nil => intro seen _; exact List.nodup_nil
  | cons x xs ih =>
    intro seen h
    rw [firstDup] at h
    by_cases hc : seen.contains x = true
    · rw [if_pos hc] at h
      cases h
    · rw [if_neg hc] at h
      refine List.Nodup.cons ?_ (ih (x :: seen) h)
      intro hx
      exact firstDup_none_not_seen xs (x :: seen) h x hx (by simp)

/-- Claim C5: a `reorderTask` request whose trimmed ordering list is empty,
contains a duplicate id, or does not contain the id of the task being moved,
is rejected with a validation error, and no task record is saved (every
`Except.error` of the model is thrown before the single persisting call). -/
theorem c5_reorderTask_validation (getTask : String → Option Task) (params : ReorderParams)
    (h : (params.orderedTaskIds.map trimStr).filter (fun s => s ≠ "") = [] ∨
      ¬ ((params.orderedTaskIds.map trimStr).filter (fun s => s ≠ "")).Nodup ∨
      trimStr params.taskId ∉ (params.orderedTaskIds.map trimStr).filter (fun s => s ≠ "")) :
    ∃ e, reorderTaskModel getTask params = Except.error e := by
  have mem_of_contains : ∀ {l : List String} {a : String}, l.contains a = true → a ∈ l := by
    intro l a hc
    simpa using hc
  simp only [reorderTaskModel]
  split
  next => exact ⟨_, rfl⟩
  next h1 =>
  split
  next => exact ⟨_, rfl⟩
  next h2 =>
  split
  next => exact ⟨_, rfl⟩
  next h3 =>
  split
  next => exact ⟨_, rfl⟩
  next h4 =>
  split
  next => exact ⟨_, rfl⟩
  next hfd =>
  split
  next => exact ⟨_, rfl⟩
  next mt hmt =>
  split
  next => exact ⟨_, rfl⟩
  next h5 =>
  exfalso
  rcases h with hemp | hnd | hmem
  · exact h3 hemp
  · exact hnd (nodup_of_firstDup_none _ _ hfd)
  · rw [Bool.not_eq_true, Bool.not_eq_false'] at h4
    exact hmem (mem_of_contains h4)

/-- Witness for C5: a request whose ordering list omits the moved task id is
rejected. -/
theorem c5_reorderTask_validation_witness :
    (trimStr rpMissingMoved.taskId ∉
      (rpMissingMoved.orderedTaskIds.map trimStr).filter (fun s => s ≠ "")) ∧
    ∃ e, reorderTaskModel lookupNone rpMissingMoved = Except.error e :=
  ⟨by decide,
    c5_reorderTask_validation lookupNone rpMissingMoved (Or.inr (Or.inr (by decide)))⟩

/-- Claim C6: once validation passes, a `reorderTask` request whose moved
task resolves to a record owned by another branch (non-empty `branch` field)
fails with the descriptive cross-branch error before anything is written, and
a moved task that cannot be loaded at all fails loudly with the not-found
error. -/
theorem c6_reorderTask_branch_or_missing (getTask : String → Option Task)
    (params : ReorderParams)
    (h1 : ¬ trimStr params.taskId = "")
    (h2 : ¬ trimStr params.targetStatus = "")
    (h3 : ¬ (params.orderedTaskIds.map trimStr).filter (fun s => s ≠ "") = [])
    (h4 : trimStr params.taskId ∈ (params.orderedTaskIds.map trimStr).filter (fun s => s ≠ ""))
    (h5 : firstDup [] ((params.orderedTaskIds.map trimStr).filter (fun s => s ≠ "")) = none) :
    (((((params.orderedTaskIds.map trimStr).filter (fun s => s ≠ "")).map getTask).filterMap
        (fun t => t)).find? (fun t => t.id = trimStr params.taskId) = none →
      reorderTaskModel getTask params =
        Except.error ("Task " ++ trimStr params.taskId ++ " not found while reordering")) ∧
    (∀ mt, ((((params.orderedTaskIds.map trimStr).filter (fun s => s ≠ "")).map
        getTask).filterMap (fun t => t)).find? (fun t => t.id = trimStr params.taskId) =
          some mt →
      jsTruthy mt.branch = true →
      reorderTaskModel getTask params =
        Except.error ("Task " ++ trimStr params.taskId ++ " exists in branch \x22" ++
          mt.branch.getD "" ++
          "\x22 and cannot be reordered from the current branch. Switch to that branch to modify it.")) := by
  have contains_of_mem : ∀ {l : List String} {a : String}, a ∈ l → l.contains a = true := by
    intro l a hmem
    simpa using hmem
  have h4' : ¬ (!((params.orderedTaskIds.map trimStr).filter
      (fun s => s ≠ "")).contains (trimStr params.taskId)) = true := by
    rw [contains_of_mem h4]
    simp
  constructor
  · intro hfind
    simp only [reorderTaskModel]
    rw [if_neg h1, if_neg h2, if_neg h3, if_neg h4', h5, hfind]
  · intro mt hfind htruthy
    simp only [reorderTaskModel]
    rw [if_neg h1, if_neg h2, if_neg h3, if_neg h4', h5, hfind]
    simp [htruthy]

/-- Witness for C6: with every lookup failing the request dies with the
not-found error; with task-1 resolved to a branch-owned record it dies with
the cross-branch error. -/
theorem c6_reorderTask_branch_or_missing_witness :
    (¬ trimStr rpOrdered.taskId = "" ∧
      firstDup [] ((rpOrdered.orderedTaskIds.map trimStr).filter (fun s => s ≠ "")) = none) ∧
    reorderTaskModel lookupNone rpOrdered =
      Except.error ("Task task-1 not found while reordering") ∧
    reorderTaskModel lookupBranchOwned rpOrdered =
      Except.error ("Task task-1 exists in branch \x22feat\x22 and cannot be reordered from the current branch. Switch to that branch to modify it.") :=
  ⟨⟨by decide, by decide⟩,
    (c6_reorderTask_branch_or_missing lookupNone rpOrdered (by decide) (by decide)
      (by decide) (by decide) (by decide)).1 (by decide),
    (c6_reorderTask_branch_or_missing lookupBranchOwned rpOrdered (by decide) (by decide)
      (by decide) (by decide) (by decide)).2 branchOwnedTask (by decide) (by decide)⟩

theorem stepTitle_noop (i : TaskUpdateInput) (t : Task) (m : Bool)
    (h : ∀ v, i.title = some v → trimStr v = t.title ∧ t.title ≠ "") :
    stepTitle i (t, m) = Except.ok (t, m) := by
  cases hv : i.title with
  | none => unfold stepTitle; rw [hv]
  | some v =>
    obtain ⟨h1, h2⟩ := h v hv
    unfold stepTitle
    simp only [hv]
    simp [h1, h2]

theorem applyStringField_eq (v cur : Option String)
    (h : ∀ s, v = some s → cur.getD "" = s) : applyStringField v cur = (cur, false) := by
  cases hv : v with
  | none => rfl
  | some s =>
    unfold applyStringField
    simp only [hv]
    simp [h s hv]

theorem appendBlock_nil (existing : Option String) (adds : List String)
    (h : (adds.map trimStr).filter (fun s => s ≠ "") = []) :
    appendBlock existing adds = (existing, false) := by
  unfold appendBlock
  rw [h]
  simp

theorem stepDescription_noop (i : TaskUpdateInput) (t : Task) (m : Bool)
    (h : ∀ v, i.description = some v → t.description.getD "" = v) :
    stepDescription i (t, m) = (t, m) := by
  unfold stepDescription
  rw [applyStringField_eq i.description t.description h]
  simp

theorem stepStatus_noop (env : UpdateEnv) (i : TaskUpdateInput) (t : Task) (m : Bool)
    (h : ∀ v, i.status = some v →
      (lowerStr (trimStr v) = "draft" ∧ t.status = "Draft") ∨
      (lowerStr (trimStr v) ≠ "draft" ∧ env.canonicalStatus v = some t.status)) :
    stepStatus env i (t, m) = Except.ok (t, m) := by
  cases hv : i.status with
  | none => unfold stepStatus; rw [hv]
  | some v =>
    unfold stepStatus
    simp only [hv]
    rcases h v hv with ⟨h1, h2⟩ | ⟨h1, h2⟩
    · simp [h1, h2]
    · simp [h1, h2]

theorem stepPriority_noop (i : TaskUpdateInput) (t : Task) (m : Bool)
    (h : ∀ v, i.priority = some v → normalizePriorityModel (some v) = Except.ok t.priority) :
    stepPriority i (t, m) = Except.ok (t, m) := by
  cases hv : i.priority with
  | none => unfold stepPriority; rw [hv]
  | some v =>
    unfold stepPriority
    simp only [hv, h v hv]
    simp

theorem stepMilestone_noop (i : TaskUpdateInput) (t : Task) (m : Bool)
    (h : ∀ mv, i.milestone = some mv →
      (match mv with
        | none => none
        | some str => if 0 < (trimStr str).length then some (trimStr str) else none) =
          t.milestone) :
    stepMilestone i (t, m) = (t, m) := by
  cases hv : i.milestone with
  | none => unfold stepMilestone; rw [hv]
  | some mv =>
    unfold stepMilestone
    simp only [hv, h mv hv]
    simp

theorem stepOrdinal_noop (i : TaskUpdateInput) (t : Task) (m : Bool)
    (h : ∀ o, i.ordinal = some o → ¬ o < 0 ∧ t.ordinal = some o) :
    stepOrdinal i (t, m) = Except.ok (t, m) := by
  cases hv : i.ordinal with
  | none => unfold stepOrdinal; rw [hv]
  | some o =>
    obtain ⟨h1, h2⟩ := h o hv
    unfold stepOrdinal
    simp only [hv]
    simp [h1, h2]

theorem stepAssignee_noop (i : TaskUpdateInput) (t : Task) (m : Bool)
    (h : ∀ l, i.assignee = some l →
      stringArraysEqual ((normalizeStringList (some l)).getD []) t.assignee = true) :
    stepAssignee i (t, m) = (t, m) := by
  cases hv : i.assignee with
  | none => unfold stepAssignee; rw [hv]
  | some l =>
    unfold stepAssignee
    simp only [hv]
    simp [h l hv]

theorem filter_not_eq_self {α : Type} (q : α → Bool) (l : List α)
    (h : ∀ a ∈ l, q a = false) : l.filter (fun a => !q a) = l := by
  induction l with
  | nil => rfl
  | cons a l ih =>
    have h1 : q a = false := h a (List.mem_cons_self a l)
    simp only [List.filter_cons, h1, Bool.not_false, eq_self_iff_true, if_true]
    exact congrArg (List.cons a) (ih (fun b hb => h b (List.mem_cons_of_mem a hb)))

theorem labels_add_fold (labels : List String) (m : Bool) (toAdd : List String)
    (h : ∀ lab ∈ toAdd,
      ((labels.map (fun x => lowerStr x)).contains (lowerStr lab)) = true) :
    toAdd.foldl
      (fun (acc : List String × Bool) lab =>
        if (acc.1.map (fun x => lowerStr x)).contains (lowerStr lab) then acc
        else (acc.1 ++ [lab], true)) (labels, m) = (labels, m) := by
  induction toAdd with
  | nil => rfl
  | cons a as ih =>
    have h1 := h a (List.mem_cons_self a as)
    simp only [List.foldl_cons]
    rw [if_pos h1]
    exact ih fun lab hl => h lab (List.mem_cons_of_mem a hl)

theorem stepLabels_noop (i : TaskUpdateInput) (t : Task) (m : Bool)
    (hs : ∀ l, i.labels = some l →
      stringArraysEqual ((normalizeStringList (some l)).getD []) t.labels = true)
    (ha : ∀ lab ∈ (normalizeStringList i.addLabels).getD [],
      ((t.labels.map (fun x => lowerStr x)).contains (lowerStr lab)) = true)
    (hr : ∀ lab ∈ t.labels,
      ((((normalizeStringList i.removeLabels).getD []).map
        (fun x => lowerStr x)).contains (lowerStr lab)) = false) :
    stepLabels i (t, m) = (t, m) := by
  have heta : ({ t with labels := t.labels } : Task) = t := by cases t; rfl
  have hfold := labels_add_fold t.labels m ((normalizeStringList i.addLabels).getD []) ha
  have hfilter : t.labels.filter
      (fun lab => !(((normalizeStringList i.removeLabels).getD []).map
        (fun x => lowerStr x)).contains (lowerStr lab)) = t.labels :=
    filter_not_eq_self
      (fun lab => (((normalizeStringList i.removeLabels).getD []).map
        (fun x => lowerStr x)).contains (lowerStr lab)) t.labels hr
  unfold stepLabels
  cases hv : i.labels with
  | none =>
    simp only [hv, hfold, heta, ite_self, hfilter, stringArraysEqual,
      beq_self_eq_true, Bool.not_true, Bool.false_eq_true, if_false]
  | some l =>
    have heq : ((normalizeStringList (some l)).getD []) = t.labels := by
      have := hs l hv
      simpa [stringArraysEqual] using this
    simp only [hv, heq, hfold, heta, ite_self, hfilter, stringArraysEqual,
      beq_self_eq_true, Bool.not_true, Bool.false_eq_true, if_false]

theorem deps_add_fold (deps : List String) (m : Bool) (adds : List String)
    (h : ∀ d ∈ adds, deps.contains d = true) :
    adds.foldl
      (fun (acc : List String × Bool) dep =>
        if acc.1.contains dep then acc else (acc.1 ++ [dep], true)) (deps, m) =
      (deps, m) := by
  induction adds with
  | nil => rfl
  | cons a as ih =>
    have h1 := h a (List.mem_cons_self a as)
    simp only [List.foldl_cons]
    rw [if_pos h1]
    exact ih fun d hd => h d (List.mem_cons_of_mem a hd)

theorem stepDependencies_noop (env : UpdateEnv) (i : TaskUpdateInput) (t : Task) (m : Bool)
    (hd : i.dependencies = none ∨ ∃ ds, i.dependencies = some ds ∧
      validateDependencies env.existingIds (normalizeDependencies (some ds)) =
        (t.dependencies, []))
    (ha : (validateDependencies env.existingIds
        (normalizeDependencies i.addDependencies)).2 = [] ∧
      ∀ d ∈ (validateDependencies env.existingIds
        (normalizeDependencies i.addDependencies)).1, t.dependencies.contains d = true)
    (hr : ∀ dep ∈ t.dependencies,
      ((normalizeDependencies i.removeDependencies).contains dep) = false) :
    stepDependencies env i (t, m) = Except.ok (t, m) := by
  obtain ⟨ha1, ha2⟩ := ha
  have heta : ({ t with dependencies := t.dependencies } : Task) = t := by cases t; rfl
  have hfilter : t.dependencies.filter
      (fun dep => !(normalizeDependencies i.removeDependencies).contains dep) =
        t.dependencies :=
    filter_not_eq_self
      (fun dep => (normalizeDependencies i.removeDependencies).contains dep)
      t.dependencies hr
  unfold stepDependencies
  rcases hd with h0 | ⟨ds0, hds0, hval0⟩
  · cases hads : i.addDependencies with
    | none =>
      cases hrds : i.removeDependencies with
      | none =>
        simp only [h0, hads, hrds, stringArraysEqual, beq_self_eq_true,
          Bool.not_true, Bool.false_eq_true, if_false, ne_eq, eq_self_iff_true,
          not_true, heta]
      | some rs =>
        rw [hrds] at hfilter
        cases rs with
        | nil =>
          simp only [h0, hads, hrds, stringArraysEqual, beq_self_eq_true,
            Bool.not_true, Bool.false_eq_true, if_false, ne_eq, eq_self_iff_true,
            not_true, heta]
        | cons r rs2 =>
          simp only [h0, hads, hrds, hfilter, stringArraysEqual, beq_self_eq_true,
            Bool.not_true, Bool.false_eq_true, if_false, ne_eq, eq_self_iff_true,
            not_true, heta]
    | some as =>
      rw [hads] at ha1 ha2
      have hfold := deps_add_fold t.dependencies m
        ((validateDependencies env.existingIds (normalizeDependencies (some as))).1) ha2
      cases as with
      | nil =>
        cases hrds : i.removeDependencies with
        | none =>
          simp only [h0, hads, hrds, stringArraysEqual, beq_self_eq_true,
            Bool.not_true, Bool.false_eq_true, if_false, ne_eq, eq_self_iff_true,
            not_true, heta]
        | some rs =>
          rw [hrds] at hfilter
          cases rs with
          | nil =>
            simp only [h0, hads, hrds, stringArraysEqual, beq_self_eq_true,
              Bool.not_true, Bool.false_eq_true, if_false, ne_eq, eq_self_iff_true,
              not_true, heta]
          | cons r rs2 =>
            simp only [h0, hads, hrds, hfilter, stringArraysEqual, beq_self_eq_true,
              Bool.not_true, Bool.false_eq_true, if_false, ne_eq, eq_self_iff_true,
              not_true, heta]
      | cons a as2 =>
        cases hrds : i.removeDependencies with
        | none =>
          simp only [h0, hads, hrds, ha1, hfold, stringArraysEqual, beq_self_eq_true,
            Bool.not_true, Bool.false_eq_true, if_false, ne_eq, eq_self_iff_true,
            not_true, heta]
        | some rs =>
          rw [hrds] at hfilter
          cases rs with
          | nil =>
            simp only [h0, hads, hrds, ha1, hfold, stringArraysEqual,
              beq_self_eq_true, Bool.not_true, Bool.false_eq_true, if_false, ne_eq,
              eq_self_iff_true, not_true, heta]
          | cons r rs2 =>
            simp only [h0, hads, hrds, ha1, hfold, hfilter, stringArraysEqual,
              beq_self_eq_true, Bool.not_true, Bool.false_eq_true, if_false, ne_eq,
              eq_self_iff_true, not_true, heta]
  · cases hads : i.addDependencies with
    | none =>
      cases hrds : i.removeDependencies with
      | none =>
        simp only [hds0, hval0, hads, hrds, stringArraysEqual, beq_self_eq_true,
          Bool.not_true, Bool.false_eq_true, if_false, ne_eq, eq_self_iff_true,
          not_true, heta]
      | some rs =>
        rw [hrds] at hfilter
        cases rs with
        | nil =>
          simp only [hds0, hval0, hads, hrds, stringArraysEqual, beq_self_eq_true,
            Bool.not_true, Bool.false_eq_true, if_false, ne_eq, eq_self_iff_true,
            not_true, heta]
        | cons r rs2 =>
          simp only [hds0, hval0, hads, hrds, hfilter, stringArraysEqual,
            beq_self_eq_true, Bool.not_true, Bool.false_eq_true, if_false, ne_eq,
            eq_self_iff_true, not_true, heta]
    | some as =>
      rw [hads] at ha1 ha2
      have hfold := deps_add_fold t.dependencies m
        ((validateDependencies env.existingIds (normalizeDependencies (some as))).1) ha2
      cases as with
      | nil =>
        cases hrds : i.removeDependencies with
        | none =>
          simp only [hds0, hval0, hads, hrds, stringArraysEqual, beq_self_eq_true,
            Bool.not_true, Bool.false_eq_true, if_false, ne_eq, eq_self_iff_true,
            not_true, heta]
        | some rs =>
          rw [hrds] at hfilter
          cases rs with
          | nil =>
            simp only [hds0, hval0, hads, hrds, stringArraysEqual, beq_self_eq_true,
              Bool.not_true, Bool.false_eq_true, if_false, ne_eq, eq_self_iff_true,
              not_true, heta]
          | cons r rs2 =>
            simp only [hds0, hval0, hads, hrds, hfilter, stringArraysEqual,
              beq_self_eq_true, Bool.not_true, Bool.false_eq_true, if_false, ne_eq,
              eq_self_iff_true, not_true, heta]
      | cons a as2 =>
        cases hrds : i.removeDependencies with
        | none =>
          simp only [hds0, hval0, hads, hrds, ha1, hfold, stringArraysEqual,
            beq_self_eq_true, Bool.not_true, Bool.false_eq_true, if_false, ne_eq,
            eq_self_iff_true, not_true, heta]
        | some rs =>
          rw [hrds] at hfilter
          cases rs with
          | nil =>
            simp only [hds0, hval0, hads, hrds, ha1, hfold, stringArraysEqual,
              beq_self_eq_true, Bool.not_true, Bool.false_eq_true, if_false, ne_eq,
              eq_self_iff_true, not_true, heta]
          | cons r rs2 =>
            simp only [hds0, hval0, hads, hrds, ha1, hfold, hfilter,
              stringArraysEqual, beq_self_eq_true, Bool.not_true, Bool.false_eq_true,
              if_false, ne_eq, eq_self_iff_true, not_true, heta]

theorem editTextField_noop (clear : Bool) (setv : Option String) (appends : List String)
    (current : Option String) (mflag : Bool)
    (hc : clear = false ∨ current = none)
    (hs : ∀ v, setv = some v → current.getD "" = v)
    (ha : (appends.map trimStr).filter (fun s => s ≠ "") = []) :
    editTextField clear setv appends current mflag = (current, mflag) := by
  have h1 : (if clear then
      (if current.isSome then ((none : Option String), true) else (current, mflag))
      else (current, mflag)) = (current, mflag) := by
    rcases hc with rfl | rfl
    · simp
    · simp
  unfold editTextField
  rw [h1]
  simp [applyStringField_eq setv current hs, appendBlock_nil current appends ha]

theorem stepPlanNotes_noop (i : TaskUpdateInput) (t : Task) (m : Bool)
    (hcp : i.clearImplementationPlan.getD false = false ∨ t.implementationPlan = none)
    (hsp : ∀ v, i.implementationPlan = some v → t.implementationPlan.getD "" = v)
    (hap : ((i.appendImplementationPlan.getD []).map trimStr).filter (fun s => s ≠ "") = [])
    (hcn : i.clearImplementationNotes.getD false = false ∨ t.implementationNotes = none)
    (hsn : ∀ v, i.implementationNotes = some v → t.implementationNotes.getD "" = v)
    (han : ((i.appendImplementationNotes.getD []).map trimStr).filter (fun s => s ≠ "") = []) :
    stepPlanNotes i (t, m) = (t, m) := by
  unfold stepPlanNotes
  simp only [editTextField_noop _ _ _ _ _ hcp hsp hap,
    editTextField_noop _ _ _ _ _ hcn hsn han]

theorem toggle_fold (desired : Bool) (ac : List AcceptanceCriterion) (m : Bool)
    (indices : List Nat)
    (h : ∀ idx ∈ indices,
      ((ac.find? (fun c => c.index = idx)).map (fun c => c.checked)) = some desired) :
    indices.foldl
      (fun (acc : List AcceptanceCriterion × Bool × List Nat) idx =>
        match acc.1.find? (fun c => c.index = idx) with
        | none => (acc.1, acc.2.1, acc.2.2 ++ [idx])
        | some c =>
          if c.checked ≠ desired then
            (setCheckedFirst idx desired acc.1, true, acc.2.2)
          else acc)
      (ac, m, []) = (ac, m, ([] : List Nat)) := by
  induction indices with
  | nil => rfl
  | cons a as ih =>
    have h1 := h a (List.mem_cons_self a as)
    simp only [List.foldl_cons]
    cases hf : ac.find? (fun c => c.index = a) with
    | none => rw [hf] at h1; simp at h1
    | some c =>
      rw [hf] at h1
      have hc : c.checked = desired := by simpa using h1
      simp only [hf]
      rw [if_neg (fun hne => hne hc)]
      exact ih fun idx hi => h idx (List.mem_cons_of_mem a hi)

theorem toggleCriteria_noop (indices : List Nat) (desired : Bool)
    (ac : List AcceptanceCriterion) (m : Bool)
    (h : ∀ idx ∈ indices,
      ((ac.find? (fun c => c.index = idx)).map (fun c => c.checked)) = some desired) :
    toggleCriteria indices desired (ac, m) = Except.ok (ac, m) := by
  unfold toggleCriteria
  by_cases hi : indices = []
  · rw [if_pos hi]
  · rw [if_neg hi]
    simp only [toggle_fold desired ac m indices h, eq_self_iff_true, if_true]

theorem stepAcceptance_noop (i : TaskUpdateInput) (t : Task) (m : Bool)
    (hac : i.acceptanceCriteria = none)
    (hadd : ((i.addAcceptanceCriteria.getD []).map (fun c => trimStr c.text)).filter
      (fun s => 0 < s.length) = [])
    (hrem : i.removeAcceptanceCriteria = none ∨ i.removeAcceptanceCriteria = some [])
    (hchk : ∀ idx ∈ i.checkAcceptanceCriteria.getD [],
      (((t.acceptanceCriteriaItems.getD []).find? (fun c => c.index = idx)).map
        (fun c => c.checked)) = some true)
    (hunchk : ∀ idx ∈ i.uncheckAcceptanceCriteria.getD [],
      (((t.acceptanceCriteriaItems.getD []).find? (fun c => c.index = idx)).map
        (fun c => c.checked)) = some false)
    (hitems : ∃ l, t.acceptanceCriteriaItems = some l) :
    stepAcceptance i (t, m) = Except.ok (t, m) := by
  obtain ⟨l, hl⟩ := hitems
  unfold stepAcceptance
  rw [hac, hadd]
  rcases hrem with hrm0 | hrm0
  · simp only [hrm0, eq_self_iff_true, if_true,
      toggleCriteria_noop (i.checkAcceptanceCriteria.getD []) true
        (t.acceptanceCriteriaItems.getD []) m hchk,
      toggleCriteria_noop (i.uncheckAcceptanceCriteria.getD []) false
        (t.acceptanceCriteriaItems.getD []) m hunchk]
    simp [hl]
    cases t
    simp_all
  · simp only [hrm0, eq_self_iff_true, if_true,
      toggleCriteria_noop (i.checkAcceptanceCriteria.getD []) true
        (t.acceptanceCriteriaItems.getD []) m hchk,
      toggleCriteria_noop (i.uncheckAcceptanceCriteria.getD []) false
        (t.acceptanceCriteriaItems.getD []) m hunchk]
    simp [hl]
    cases t
    simp_all

theorem stepTail_noop (i : TaskUpdateInput) (t : Task) (m : Bool)
    (hb : ∀ v, i.branchName = some v → t.branchName.getD "" = v)
    (hg : ∀ v, i.gitTag = some v → t.gitTag.getD "" = v)
    (hp : ∀ v, i.prNumber = some v → t.prNumber.getD "" = v)
    (hh : i.addToHistory = none) :
    stepTail i (t, m) = (t, m) := by
  unfold stepTail
  simp [applyStringField_eq i.branchName t.branchName hb,
    applyStringField_eq i.gitTag t.gitTag hg,
    applyStringField_eq i.prNumber t.prNumber hp, hh]

/-- C10 counterexample: replacing the acceptance criteria with a list equal
to the current one changes no field of the task, yet `updateTaskFromInput`
marks the task mutated, saves it, and stamps `updatedDate`; the claim
predicts no write for such an input. -/
theorem c10_no_change_counterexample :
    updateTaskFromInputModel updEnv "task-1" (some updTask) updInputAC =
      Except.ok { task := { updTask with updatedDate := some 99 },
                  wrote := true, callbackFired := false } := by
  rfl

/-- Claim C10 (amended): a call to `updateTaskFromInput` whose input produces
no detected change in any individual edit step — every supplied scalar equals
the current value after normalization, and no append, add, remove, clear,
history or full acceptance-criteria replacement operation takes effect —
returns the loaded task unchanged, performs no write, leaves `updatedDate`
untouched and fires no status-change callback.  (A full `acceptanceCriteria`
replacement is excluded because it marks the task mutated even when the
sanitized list equals the current one, as the counterexample shows.) -/
theorem c10_no_change_no_write_amended (env : UpdateEnv) (taskId : String) (t : Task)
    (i : TaskUpdateInput)
    (hTitle : ∀ v, i.title = some v → trimStr v = t.title ∧ t.title ≠ "")
    (hDesc : ∀ v, i.description = some v → t.description.getD "" = v)
    (hStatus : ∀ v, i.status = some v →
      (lowerStr (trimStr v) = "draft" ∧ t.status = "Draft") ∨
      (lowerStr (trimStr v) ≠ "draft" ∧ env.canonicalStatus v = some t.status))
    (hPrio : ∀ v, i.priority = some v →
      normalizePriorityModel (some v) = Except.ok t.priority)
    (hMile : ∀ mv, i.milestone = some mv →
      (match mv with
        | none => none
        | some str => if 0 < (trimStr str).length then some (trimStr str) else none) =
          t.milestone)
    (hOrd : ∀ o, i.ordinal = some o → ¬ o < 0 ∧ t.ordinal = some o)
    (hAssign : ∀ l, i.assignee = some l →
      stringArraysEqual ((normalizeStringList (some l)).getD []) t.assignee = true)
    (hLabels : ∀ l, i.labels = some l →
      stringArraysEqual ((normalizeStringList (some l)).getD []) t.labels = true)
    (hAddL : ∀ lab ∈ (normalizeStringList i.addLabels).getD [],
      ((t.labels.map (fun x => lowerStr x)).contains (lowerStr lab)) = true)
    (hRemL : ∀ lab ∈ t.labels,
      ((((normalizeStringList i.removeLabels).getD []).map
        (fun x => lowerStr x)).contains (lowerStr lab)) = false)
    (hDeps : i.dependencies = none ∨ ∃ ds, i.dependencies = some ds ∧
      validateDependencies env.existingIds (normalizeDependencies (some ds)) =
        (t.dependencies, []))
    (hAddD : (validateDependencies env.existingIds
        (normalizeDependencies i.addDependencies)).2 = [] ∧
      ∀ d ∈ (validateDependencies env.existingIds
        (normalizeDependencies i.addDependencies)).1, t.dependencies.contains d = true)
    (hRemD : ∀ dep ∈ t.dependencies,
      ((normalizeDependencies i.removeDependencies).contains dep) = false)
    (hClrP : i.clearImplementationPlan.getD false = false ∨ t.implementationPlan = none)
    (hSetP : ∀ v, i.implementationPlan = some v → t.implementationPlan.getD "" = v)
    (hAppP : ((i.appendImplementationPlan.getD []).map trimStr).filter
      (fun s => s ≠ "") = [])
    (hClrN : i.clearImplementationNotes.getD false = false ∨ t.implementationNotes = none)
    (hSetN : ∀ v, i.implementationNotes = some v → t.implementationNotes.getD "" = v)
    (hAppN : ((i.appendImplementationNotes.getD []).map trimStr).filter
      (fun s => s ≠ "") = [])
    (hAC : i.acceptanceCriteria = none)
    (hAddAC : ((i.addAcceptanceCriteria.getD []).map (fun c => trimStr c.text)).filter
      (fun s => 0 < s.length) = [])
    (hRemAC : i.removeAcceptanceCriteria = none ∨ i.removeAcceptanceCriteria = some [])
    (hChk : ∀ idx ∈ i.checkAcceptanceCriteria.getD [],
      (((t.acceptanceCriteriaItems.getD []).find? (fun c => c.index = idx)).map
        (fun c => c.checked)) = some true)
    (hUnchk : ∀ idx ∈ i.uncheckAcceptanceCriteria.getD [],
      (((t.acceptanceCriteriaItems.getD []).find? (fun c => c.index = idx)).map
        (fun c => c.checked)) = some false)
    (hItems : ∃ l, t.acceptanceCriteriaItems = some l)
    (hBr : ∀ v, i.branchName = some v → t.branchName.getD "" = v)
    (hGt : ∀ v, i.gitTag = some v → t.gitTag.getD "" = v)
    (hPr : ∀ v, i.prNumber = some v → t.prNumber.getD "" = v)
    (hHist : i.addToHistory = none) :
    updateTaskFromInputModel env taskId (some t) i =
      Except.ok { task := t, wrote := false, callbackFired := false } := by
  simp only [updateTaskFromInputModel,
    stepTitle_noop i t false hTitle,
    stepDescription_noop i t false hDesc,
    stepStatus_noop env i t false hStatus,
    stepPriority_noop i t false hPrio,
    stepMilestone_noop i t false hMile,
    stepOrdinal_noop i t false hOrd,
    stepAssignee_noop i t false hAssign,
    stepLabels_noop i t false hLabels hAddL hRemL,
    stepDependencies_noop env i t false hDeps hAddD hRemD,
    stepPlanNotes_noop i t false hClrP hSetP hAppP hClrN hSetN hAppN,
    stepAcceptance_noop i t false hAC hAddAC hRemAC hChk hUnchk hItems,
    stepTail_noop i t false hBr hGt hPr hHist]
  rfl

/-- Witness for C10 (amended) at a concrete input: re-supplying the current
title (with whitespace), adding a label already present up to case, removing
an absent label, adding an already-present dependency, removing an absent
dependency and checking an already-checked criterion performs no write. -/
theorem c10_no_change_no_write_amended_witness :
    updateTaskFromInputModel updEnv "task-1" (some updTask) updInputSame =
      Except.ok { task := updTask, wrote := false, callbackFired := false } :=
  c10_no_change_no_write_amended updEnv "task-1" updTask updInputSame
    (fun v hv => by cases hv; exact ⟨by decide, by decide⟩)
    (fun v hv => nomatch hv)
    (fun v hv => nomatch hv)
    (fun v hv => nomatch hv)
    (fun v hv => nomatch hv)
    (fun o hv => nomatch hv)
    (fun l hv => nomatch hv)
    (fun l hv => nomatch hv)
    (by decide) (by decide)
    (Or.inl rfl) (by decide) (by decide)
    (Or.inl (by decide))
    (fun v hv => nomatch hv)
    (by decide)
    (Or.inl (by decide))
    (fun v hv => nomatch hv)
    (by decide)
    rfl (by decide) (Or.inl rfl) (by decide) (by decide)
    ⟨[{ index := 1, text := "a", checked := true }], rfl⟩
    (fun v hv => nomatch hv)
    (fun v hv => nomatch hv)
    (fun v hv => nomatch hv)
    rfl

end Backlog
